import Mathlib

/-!
Verification of the Registry Reconciliation & Publish Orchestration Engine
of pnpm-airgap, shallowly embedded from the JavaScript sources
(lib/shared-utils.js, lib/offline-publisher.js, lib/registry-state.js,
lib/constants.js, and the legacy bootstrap publisher).

Network I/O (HTTP metadata reads, the npm publish subprocess) is abstracted
as oracle functions supplying, per call, the observable outcome the code
branches on; everything else (caching, retry loops, classification,
reconciliation, diffing) is translated directly.
-/

/-! ## Constants (lib/constants.js) -/

namespace TIMEOUTS

def BASE : Nat := 120000

def MAX : Nat := 600000

def PER_MB : Nat := 30000

def HTTP_REQUEST : Nat := 10000

def HTTP_REQUEST_RETRY : Nat := 15000

end TIMEOUTS

namespace CACHE

def MAX_SIZE : Nat := 10000

def EVICTION_COUNT : Nat := 1000

end CACHE

namespace STATUS

def SUCCESS : String := "success"

def ERROR : String := "error"

def SKIPPED : String := "skipped"

def UNCERTAIN : String := "uncertain"

end STATUS

namespace EXISTENCE

def EXISTS : String := "exists"

def NOT_EXISTS : String := "not_exists"

def UNCERTAIN : String := "uncertain"

end EXISTENCE

namespace SIZES

def BYTES_PER_MB : Nat := 1024 * 1024

end SIZES

namespace RETRY

def MAX_ATTEMPTS : Nat := 3

def PRE_CHECK_ATTEMPTS : Nat := 2

def INITIAL_BACKOFF : Nat := 1000

def MAX_BACKOFF : Nat := 10000

def BACKOFF_MULTIPLIER : Nat := 2

def JITTER_MAX : Nat := 500

end RETRY

def VERSION_TAG_PREFIX : String := "legacy"

/-! ## String helpers

JavaScript `String.prototype.includes` and friends, modelled over the
character list of the string so the kernel can evaluate them. -/

/-- Whether `needle` occurs at the start of `hay` (character lists). -/
def startsWithL : List Char → List Char → Bool
  | [], _ => true
  | _ :: _, [] => false
  | a :: as, b :: bs => a == b && startsWithL as bs

/-- Whether `needle` occurs contiguously anywhere in `hay` (character lists). -/
def containsSubL (needle : List Char) : List Char → Bool
  | [] => startsWithL needle []
  | c :: t => startsWithL needle (c :: t) || containsSubL needle t

/-- JavaScript `hay.includes(needle)`. -/
def strIncludes (hay needle : String) : Bool :=
  containsSubL needle.data hay.data

/-- JavaScript `s.toLowerCase()` (ASCII, which is all the classifier tables use). -/
def strToLower (s : String) : String :=
  String.mk (s.data.map Char.toLower)

/-- JavaScript `s.split('\n')[0]`: everything before the first newline. -/
def firstLine (s : String) : String :=
  String.mk (s.data.takeWhile (fun c => !(c == '\n')))

/-- JavaScript truthiness of an optional string (`undefined` and `""` are falsy). -/
def truthyS : Option String → Bool
  | none => false
  | some t => !(t == "")

/-! ## Insertion-ordered map (JavaScript `Map`) as an association list -/

/-- JavaScript `Map.prototype.has`. -/
def mhas {V : Type} (m : List (String × V)) (k : String) : Bool :=
  m.any (fun p => p.1 == k)

/-- JavaScript `Map.prototype.get`. -/
def mget {V : Type} : List (String × V) → String → Option V
  | [], _ => none
  | (a, b) :: t, k => if a == k then some b else mget t k

/-- JavaScript `Map.prototype.set`: replace in place if present, else append. -/
def mset {V : Type} : List (String × V) → String → V → List (String × V)
  | [], k, v => [(k, v)]
  | (a, b) :: t, k, v => if a == k then (a, v) :: t else (a, b) :: mset t k v

/-- JavaScript `Map.prototype.delete` (keys are unique, so filtering is deletion). -/
def mdelete {V : Type} (m : List (String × V)) (k : String) : List (String × V) :=
  m.filter (fun p => !(p.1 == k))

/-- The key list of a map. -/
def keysOf {V : Type} (m : List (String × V)) : List String :=
  m.map Prod.fst

/-! ## LRUCache (lib/shared-utils.js, class LRUCache) -/

structure LRUCache (V : Type) where
  maxSize : Nat
  evictionCount : Nat
  cache : List (String × V)
  accessOrder : List String
deriving DecidableEq

/-- `_updateAccessOrder`: drop any existing occurrence, push to the back. -/
def updAcc (l : List String) (k : String) : List String :=
  l.erase k ++ [k]

def LRUCache.size {V : Type} (c : LRUCache V) : Nat :=
  c.cache.length

def LRUCache.has {V : Type} (c : LRUCache V) (k : String) : Bool :=
  mhas c.cache k

/-- `get`: on a hit, touch the access order and return the value. -/
def LRUCache.get {V : Type} (c : LRUCache V) (k : String) : Option V × LRUCache V :=
  if c.has k then (mget c.cache k, { c with accessOrder := updAcc c.accessOrder k })
  else (none, c)

/-- `_evict`: splice the oldest `evictionCount` keys off the access order and
delete each of them from the map. -/
def LRUCache.evict {V : Type} (c : LRUCache V) : LRUCache V :=
  let toRemove := c.accessOrder.take c.evictionCount
  { c with cache := toRemove.foldl (fun m k => mdelete m k) c.cache,
           accessOrder := c.accessOrder.drop c.evictionCount }

/-- `set`: evict when inserting a new key at capacity, then write and touch. -/
def LRUCache.set {V : Type} (c : LRUCache V) (k : String) (v : V) : LRUCache V :=
  let c1 := if c.has k = false ∧ c.maxSize ≤ c.size then c.evict else c
  { c1 with cache := mset c1.cache k v, accessOrder := updAcc c1.accessOrder k }

def LRUCache.clear {V : Type} (c : LRUCache V) : LRUCache V :=
  { c with cache := [], accessOrder := [] }

/-- A fresh cache, as built at module load (`new LRUCache(maxSize, evictionCount)`). -/
def emptyLRU (V : Type) (maxSize evictionCount : Nat) : LRUCache V :=
  ⟨maxSize, evictionCount, [], []⟩

/-! ## Backoff (calculateBackoffDelay, lib/shared-utils.js) -/

/-- `calculateBackoffDelay(attempt, initialDelay, maxDelay, multiplier)`.
`rand` stands for the `Math.random()` draw; the jitter is
`Math.floor(rand * RETRY.JITTER_MAX)`. -/
def calculateBackoffDelay (attempt initialDelay maxDelay multiplier : Nat) (rand : ℚ) : Nat :=
  let baseDelay := min (initialDelay * multiplier ^ (attempt - 1)) maxDelay
  let jitter := (Int.floor (rand * (RETRY.JITTER_MAX : ℚ))).toNat
  baseDelay + jitter

/-! ## Existence Oracle (packageExists, lib/shared-utils.js)

`httpRequest` either resolves with `{statusCode, data}` or rejects with an
error message (transport error, timeout, too many redirects).  For a 200
response the code runs `JSON.parse(data)` and looks the target version up in
`packageData.versions`; the observable outcome of that composite is either a
parse failure message or a boolean "the version is present", which is how a
response body is represented here.  Authentication headers and the
per-attempt timeout choice only influence the network outcome, so they are
absorbed into the oracle. -/

inductive RespBody where
  | parsed (hasVersion : Bool)
  | parseFail (msg : String)
deriving DecidableEq

inductive Resp where
  | ok (statusCode : Nat) (body : RespBody)
  | err (msg : String)
deriving DecidableEq

structure ExistenceResult where
  status : String
  certain : Bool
  error : Option String := none
deriving DecidableEq

/-- The post-loop / break result: `{status: UNCERTAIN, certain: false, error: lastError}`. -/
def mkUncertain (lastError : Option String) : ExistenceResult :=
  { status := EXISTENCE.UNCERTAIN, certain := false, error := lastError }

structure PEOut where
  result : ExistenceResult
  cache : LRUCache ExistenceResult
  requests : Nat
deriving DecidableEq

/-- The retry loop of `packageExists` (`for attempt = 1..maxRetries`).
`fuel` is the number of attempts still allowed (`maxRetries - attempt + 1`);
`oracle n` is the outcome of the HTTP request issued on attempt `n`.
`requests` counts the HTTP requests issued. -/
def peGo (oracle : Nat → Resp) (cache : LRUCache ExistenceResult) (cacheKey : String) :
    Nat → Nat → Option String → PEOut
  | 0, _, lastError => ⟨mkUncertain lastError, cache, 0⟩
  | fuel + 1, attempt, _ =>
    match oracle attempt with
    | Resp.ok code body =>
      if code = 200 then
        match body with
        | RespBody.parsed hasVersion =>
          let result : ExistenceResult :=
            { status := if hasVersion then EXISTENCE.EXISTS else EXISTENCE.NOT_EXISTS,
              certain := true, error := none }
          ⟨result, cache.set cacheKey result, 1⟩
        | RespBody.parseFail msg =>
          -- parse errors are not retried: break out to the uncertain return
          ⟨mkUncertain (some ("Failed to parse registry response: " ++ msg)), cache, 1⟩
      else if code = 404 then
        let result : ExistenceResult :=
          { status := EXISTENCE.NOT_EXISTS, certain := true, error := none }
        ⟨result, cache.set cacheKey result, 1⟩
      else if code = 401 ∨ code = 403 then
        ⟨{ status := EXISTENCE.UNCERTAIN, certain := false,
           error := some ("Authentication error (" ++ toString code ++ ")") }, cache, 1⟩
      else
        let out := peGo oracle cache cacheKey fuel (attempt + 1) (some ("HTTP " ++ toString code))
        ⟨out.result, out.cache, out.requests + 1⟩
    | Resp.err msg =>
      let out := peGo oracle cache cacheKey fuel (attempt + 1) (some msg)
      ⟨out.result, out.cache, out.requests + 1⟩

/-- `packageExists(name, version, registryUrl, {useCache, maxRetries})`:
consult the shared existence cache first, otherwise run the retry loop. -/
def packageExists (oracle : Nat → Resp) (name version registryUrl : String)
    (useCache : Bool) (maxRetries : Nat) (cache : LRUCache ExistenceResult) : PEOut :=
  let cacheKey := registryUrl ++ "::" ++ name ++ "@" ++ version
  if useCache = true ∧ cache.has cacheKey = true then
    match cache.get cacheKey with
    | (some cached, c2) => ⟨cached, c2, 0⟩
    | (none, _) => peGo oracle cache cacheKey maxRetries 1 none
  else peGo oracle cache cacheKey maxRetries 1 none

/-! ## Timeout computation -/

/-- `calculateTimeout(tarballPath)` (lib/shared-utils.js).  `statSize` is the
byte size reported by `fs.stat`, or `none` when the stat call fails. -/
def calculateTimeout (statSize : Option Nat) : Nat :=
  match statSize with
  | some size => min (TIMEOUTS.BASE + size * TIMEOUTS.PER_MB / SIZES.BYTES_PER_MB) TIMEOUTS.MAX
  | none => TIMEOUTS.BASE

/-- The known historically slow/large package names of the legacy publisher. -/
def largePackages : List String :=
  ["next", "@next/core", "webpack", "typescript", "react-scripts",
   "@angular/cli", "electron", "puppeteer", "playwright"]

/-- `calculateTimeout(tarballPath, packageName)` of the legacy bootstrap
publisher: `max(30000, sizeMB * 15000)`, raised to at least 120000 for names
containing a known large-package substring, capped at 300000.  Sizes and the
result are rationals because the JavaScript value is never floored. -/
def calculateTimeoutLegacy (statSize : Option ℚ) (packageName : String) : ℚ :=
  match statSize with
  | some size =>
    let fileSizeMB := size / ((1024 : ℚ) * 1024)
    let t1 := max (30000 : ℚ) (fileSizeMB * 15000)
    let t2 := if largePackages.any (fun pkg => strIncludes packageName pkg) then
        max t1 (120000 : ℚ)
      else t1
    min t2 (300000 : ℚ)
  | none => 60000

/-! ## Version tag generation (generateVersionTag, lib/shared-utils.js) -/

/-- `` `${VERSION_TAG_PREFIX}-${version.replace(/\./g, '-')}` ``. -/
def generateVersionTag (version : String) : String :=
  VERSION_TAG_PREFIX ++ "-" ++ String.mk (version.data.map (fun c => if c == '.' then '-' else c))

/-! ## Publish Executor (publishPackage, lib/offline-publisher.js) -/

/-- Result record of `publishPackage` (only the fields the engine reads). -/
structure PublishResult where
  status : String
  name : Option String := none
  version : Option String := none
  attempt : Option Nat := none
  tag : Option String := none
  note : Option String := none
  error : Option String := none
  attempts : Option Nat := none
  reason : Option String := none
deriving DecidableEq

/-- Outcome of one invocation of the external publish primitive (`npm publish`). -/
inductive PrimOut where
  | success
  | failure (msg : String)
deriving DecidableEq

/-- The substrings identifying a version-ordering conflict. -/
def isVersionOrderingConflict (msg : String) : Bool :=
  strIncludes msg "previously published version" &&
  strIncludes msg "is higher than" &&
  strIncludes msg "You must specify a tag"

def retryableErrors : List String :=
  ["timeout", "ETIMEDOUT", "ECONNRESET", "ENOTFOUND",
   "ECONNREFUSED", "socket hang up", "network timeout"]

/-- Retryable-transient classification: case-insensitive substring match. -/
def isRetryableMsg (msg : String) : Bool :=
  retryableErrors.any (fun e => strIncludes (strToLower msg) (strToLower e))

/-- The post-loop error result: first line of the last error (`|| 'Unknown error'`). -/
def firstLineD (lastError : Option String) : String :=
  match lastError with
  | none => "Unknown error"
  | some m => let f := firstLine m; if f == "" then "Unknown error" else f

/-- The retry loop of `publishPackage`.  `prim call tag` is the outcome of
the `call`-th invocation (0-based) of the publish primitive with `--tag tag`;
the second component of the result is the tag passed to each primitive
invocation actually made, in order. -/
def publishGo (prim : Nat → String → PrimOut) (tag fallbackTag : String) (maxRetries : Nat) :
    Nat → Nat → Nat → Option String → PublishResult × List String
  | 0, _, _, lastError =>
    ({ status := STATUS.ERROR, error := some (firstLineD lastError),
       attempts := some maxRetries }, [])
  | fuel + 1, attempt, call, _ =>
    match prim call tag with
    | PrimOut.success =>
      ({ status := STATUS.SUCCESS, attempt := some attempt, tag := some tag }, [tag])
    | PrimOut.failure msg =>
      if isVersionOrderingConflict msg = true then
        match prim (call + 1) fallbackTag with
        | PrimOut.success =>
          ({ status := STATUS.SUCCESS, attempt := some attempt, tag := some fallbackTag,
             note := some ("Published with tag " ++ fallbackTag ++ " (older version)") },
           [tag, fallbackTag])
        | PrimOut.failure m2 =>
          ({ status := STATUS.ERROR,
             error := some ("Version conflict retry failed: " ++ firstLine m2) },
           [tag, fallbackTag])
      else if strIncludes msg "You must specify a tag using --tag when publishing a prerelease version" = true then
        ({ status := STATUS.ERROR,
           error := some "Prerelease tag detection failed - manual intervention needed" }, [tag])
      else if (strIncludes msg "409" || strIncludes msg "conflict" ||
               strIncludes msg "cannot publish over") = true then
        ({ status := STATUS.SKIPPED, reason := some "Already exists (conflict)" }, [tag])
      else if (isRetryableMsg msg = true) ∧ attempt < maxRetries then
        let out := publishGo prim tag fallbackTag maxRetries fuel (attempt + 1) (call + 1) (some msg)
        (out.1, tag :: out.2)
      else
        -- break: fall through to the post-loop error with lastError = msg
        ({ status := STATUS.ERROR, error := some (firstLineD (some msg)),
           attempts := some maxRetries }, [tag])

/-- The attempt loop of `publishPackage` for a package whose info was
extracted: the tag option is the detected prerelease tag or `latest`, and
the fallback tag is `generateVersionTag(version)`. -/
def publishPackageRun (prim : Nat → String → PrimOut) (version : String)
    (prereleaseTag : Option String) (maxRetries : Nat) : PublishResult × List String :=
  let tagOption := prereleaseTag.getD "latest"
  publishGo prim tagOption (generateVersionTag version) maxRetries maxRetries 1 0 none

/-! ## Publish orchestration (publishPackages, lib/offline-publisher.js) -/

/-- Entry of the `preCheckedPackages` map. -/
structure PreCheckEntry where
  pkgExists : Bool
  certain : Bool
  error : Option String := none
deriving DecidableEq

/-- Classification of a pre-check `packageExists` result into the
`preCheckedPackages` entry (offline-publisher.js, pre-check phase). -/
def preCheckClassify (r : ExistenceResult) : PreCheckEntry :=
  if r.status == EXISTENCE.EXISTS && r.certain then
    { pkgExists := true, certain := true }
  else if r.status == EXISTENCE.NOT_EXISTS && r.certain then
    { pkgExists := false, certain := true }
  else
    { pkgExists := false, certain := false, error := r.error }

/-- The per-tarball publish worker of `publishPackages`: skip when the
pre-check recorded a certain hit, otherwise run `publishPackage`.
`cachedInfo` is the extracted package info (when extraction succeeded),
`pre` the `preCheckedPackages` entry for this package id, and `doPublish`
the `publishPackage` outcome paired with the tags of the primitive
invocations it would make. -/
def publishWorker {Info : Type} (skipExisting : Bool) (cachedInfo : Option Info)
    (pre : Option PreCheckEntry) (doPublish : PublishResult × List String) :
    PublishResult × List String :=
  if skipExisting && cachedInfo.isSome then
    match pre with
    | some p =>
      if p.pkgExists && p.certain then
        ({ status := STATUS.SKIPPED, reason := some "Pre-checked (exists)" }, [])
      else doPublish
    | none => doPublish
  else doPublish

/-! ## Reconciliation pass (verification of 404 failures, publishPackages) -/

structure VerifyOut where
  isFalseNegative : Bool
  requests : Nat
deriving DecidableEq

/-- Whether the failure outcome carries a resolvable identity
(`!name || !version || name === 'unknown' || version === 'unknown'` negated). -/
def resolvableIdentity (e : PublishResult) : Bool :=
  truthyS e.name && truthyS e.version &&
  !(e.name == some "unknown") && !(e.version == some "unknown")

/-- The per-failure verification worker of `publishPackages`: for a failure
whose error text contains "404" and whose identity is resolvable, re-run
`packageExists` with `useCache: false` (and the default
`RETRY.PRE_CHECK_ATTEMPTS` retries); the failure is a false negative exactly
when that re-check reports `EXISTENCE.EXISTS`. -/
def verifyFailure (oracle : Nat → Resp) (cache : LRUCache ExistenceResult)
    (registryUrl : String) (e : PublishResult) : VerifyOut :=
  if truthyS e.error && strIncludes (e.error.getD "") "404" then
    if resolvableIdentity e = false then ⟨false, 0⟩
    else
      let out := packageExists oracle (e.name.getD "") (e.version.getD "") registryUrl
        false RETRY.PRE_CHECK_ATTEMPTS cache
      ⟨out.result.status == EXISTENCE.EXISTS, out.requests⟩
  else ⟨false, 0⟩

/-! ## Registry State Differ (filterMissingPackages, lib/registry-state.js) -/

structure LockPkgInfo where
  name : String
  version : String
deriving DecidableEq

structure FMStats where
  total : Nat
  missing : Nat
  existing : Nat
deriving DecidableEq

structure FMResult where
  missing : List (String × LockPkgInfo)
  existing : List (String × LockPkgInfo)
  stats : FMStats
deriving DecidableEq

/-- The diff predicate: the snapshot lookup has the package name and its
version set contains the exact required version. -/
def snapshotHasVersion (versionLookup : List (String × List String))
    (info : LockPkgInfo) : Bool :=
  match mget versionLookup info.name with
  | some versions => versions.contains info.version
  | none => false

/-- One step of the `for (const [packageId, info] of lockfilePackages)` loop. -/
def fmStep (versionLookup : List (String × List String))
    (acc : List (String × LockPkgInfo) × List (String × LockPkgInfo))
    (p : String × LockPkgInfo) :
    List (String × LockPkgInfo) × List (String × LockPkgInfo) :=
  if snapshotHasVersion versionLookup p.2 then (acc.1, acc.2 ++ [p])
  else (acc.1 ++ [p], acc.2)

/-- `filterMissingPackages(lockfilePackages, versionLookup)`. -/
def filterMissingPackages (lockfilePackages : List (String × LockPkgInfo))
    (versionLookup : List (String × List String)) : FMResult :=
  let acc := lockfilePackages.foldl (fmStep versionLookup) ([], [])
  { missing := acc.1, existing := acc.2,
    stats := { total := lockfilePackages.length,
               missing := acc.1.length, existing := acc.2.length } }

/-! ## Pure helpers for the cache-eviction analysis -/

/-- Cache operations, for stating invariants over arbitrary operation
sequences. -/
inductive CacheOp (V : Type) where
  | opGet (k : String)
  | opSet (k : String) (v : V)
  | opClear

def applyOp {V : Type} (c : LRUCache V) : CacheOp V → LRUCache V
  | CacheOp.opGet k => (c.get k).2
  | CacheOp.opSet k v => c.set k v
  | CacheOp.opClear => c.clear

def applyOps {V : Type} (c : LRUCache V) (ops : List (CacheOp V)) : LRUCache V :=
  ops.foldl applyOp c

/-- Insert a batch of keys in order (each with value `v`). -/
def insertAll {V : Type} (c : LRUCache V) (ks : List String) (v : V) : LRUCache V :=
  ks.foldl (fun cc k => cc.set k v) c

/-- The access-order evolution under fresh distinct inserts: before each
insert, drop the oldest `E` keys when at capacity `M`, then push. -/
def repF (M E : Nat) : List String → List String → List String
  | p, [] => p
  | p, x :: xs => repF M E ((if M ≤ p.length then p.drop E else p) ++ [x]) xs

/-- The length evolution corresponding to `repF`. -/
def lenF (M E : Nat) : Nat → Nat → Nat
  | l, 0 => l
  | l, n + 1 => lenF M E ((if M ≤ l then l - E else l) + 1) n

/-- Every value stored in the existence cache is a certain result whose
status is `exists` or `not_exists`. -/
def cacheOK (c : LRUCache ExistenceResult) : Prop :=
  ∀ p ∈ c.cache, p.2.certain = true ∧
    (p.2.status = EXISTENCE.EXISTS ∨ p.2.status = EXISTENCE.NOT_EXISTS)

/-- Structural well-formedness of an `LRUCache`: the access order has no
duplicates and lists exactly the cached keys. -/
def cacheWF {V : Type} (c : LRUCache V) : Prop :=
  c.accessOrder.Nodup ∧ (keysOf c.cache).Perm c.accessOrder

/-- A supply of pairwise distinct keys (for concrete insertion scenarios). -/
def mkStr (i : Nat) : String :=
  String.mk (List.replicate i 'a')

def seqKeys (n : Nat) : List String :=
  (List.range n).map mkStr

/-! ## Basic lemmas about the map and cache embedding -/

theorem mhas_cons {V : Type} (a : String) (b : V) (t : List (String × V)) (k : String) :
    mhas ((a, b) :: t) k = (a == k || mhas t k) := by
  simp [mhas]

theorem mhas_iff {V : Type} (m : List (String × V)) (k : String) :
    mhas m k = true ↔ k ∈ keysOf m := by
  simp [mhas, keysOf, List.any_eq_true, List.mem_map, beq_iff_eq]

theorem mhas_false_iff {V : Type} (m : List (String × V)) (k : String) :
    mhas m k = false ↔ ¬ k ∈ keysOf m := by
  rw [← mhas_iff]
  cases mhas m k <;> simp

theorem mget_mset_self {V : Type} (m : List (String × V)) (k : String) (v : V) :
    mget (mset m k v) k = some v := by
  induction m with
  | nil => simp [mset, mget]
  | cons p t ih =>
    obtain ⟨a, b⟩ := p
    by_cases h : a = k
    · simp [mset, mget, h]
    · simp only [mset, mget, beq_iff_eq, if_neg h]
      exact ih

theorem mget_mem {V : Type} (m : List (String × V)) (k : String) (v : V)
    (h : mget m k = some v) : (k, v) ∈ m := by
  induction m with
  | nil => simp [mget] at h
  | cons p t ih =>
    obtain ⟨a, b⟩ := p
    by_cases ha : a = k
    · simp only [mget, beq_iff_eq, if_pos ha] at h
      cases h
      subst ha
      exact List.mem_cons_self _ _
    · simp only [mget, beq_iff_eq, if_neg ha] at h
      exact List.mem_cons_of_mem _ (ih h)

theorem mget_isSome_mhas {V : Type} (m : List (String × V)) (k : String) (v : V)
    (h : mget m k = some v) : mhas m k = true := by
  rw [mhas_iff]
  simp only [keysOf, List.mem_map]
  exact ⟨(k, v), mget_mem m k v h, rfl⟩

theorem mset_mem {V : Type} (m : List (String × V)) (k : String) (v : V) (p : String × V)
    (h : p ∈ mset m k v) : p ∈ m ∨ p = (k, v) := by
  induction m with
  | nil => simpa [mset] using h
  | cons q t ih =>
    obtain ⟨a, b⟩ := q
    by_cases ha : a = k
    · simp only [mset, beq_iff_eq, if_pos ha] at h
      rcases List.mem_cons.mp h with h1 | h1
      · right; rw [h1, ha]
      · left; exact List.mem_cons_of_mem _ h1
    · simp only [mset, beq_iff_eq, if_neg ha] at h
      rcases List.mem_cons.mp h with h1 | h1
      · left; rw [h1]; exact List.mem_cons_self _ _
      · rcases ih h1 with h2 | h2
        · left; exact List.mem_cons_of_mem _ h2
        · right; exact h2

theorem mdelete_mem {V : Type} (m : List (String × V)) (k : String) (p : String × V)
    (h : p ∈ mdelete m k) : p ∈ m :=
  List.mem_of_mem_filter h

theorem foldl_mdelete_mem {V : Type} (p : String × V) :
    ∀ (R : List String) (m : List (String × V)),
      p ∈ R.foldl (fun mm k => mdelete mm k) m → p ∈ m := by
  intro R
  induction R with
  | nil => intro m h; simpa using h
  | cons r t ih =>
    intro m h
    exact mdelete_mem _ _ _ (ih (mdelete m r) h)

theorem keysOf_length {V : Type} (m : List (String × V)) :
    (keysOf m).length = m.length := by
  simp [keysOf]

theorem keysOf_mset_pos {V : Type} (m : List (String × V)) (k : String) (v : V)
    (h : mhas m k = true) : keysOf (mset m k v) = keysOf m := by
  induction m with
  | nil => simp [mhas] at h
  | cons q t ih =>
    obtain ⟨a, b⟩ := q
    by_cases ha : a = k
    · subst ha
      simp [mset, keysOf]
    · have hbeq : (a == k) = false := by simpa [beq_iff_eq] using ha
      rw [mhas_cons, hbeq, Bool.false_or] at h
      have ih2 := ih h
      simp only [keysOf] at ih2 ⊢
      simp [mset, hbeq, ih2]

theorem keysOf_mset_neg {V : Type} (m : List (String × V)) (k : String) (v : V)
    (h : mhas m k = false) : keysOf (mset m k v) = keysOf m ++ [k] := by
  induction m with
  | nil => simp [mset, keysOf]
  | cons q t ih =>
    obtain ⟨a, b⟩ := q
    rw [mhas_cons] at h
    rcases Bool.or_eq_false_iff.mp h with ⟨h1, h2⟩
    have ih2 := ih h2
    simp only [keysOf] at ih2 ⊢
    simp [mset, h1, ih2]

theorem length_mset_pos {V : Type} (m : List (String × V)) (k : String) (v : V)
    (h : mhas m k = true) : (mset m k v).length = m.length := by
  have := congrArg List.length (keysOf_mset_pos m k v h)
  rwa [keysOf_length, keysOf_length] at this

theorem length_mset_neg {V : Type} (m : List (String × V)) (k : String) (v : V)
    (h : mhas m k = false) : (mset m k v).length = m.length + 1 := by
  have := congrArg List.length (keysOf_mset_neg m k v h)
  rw [keysOf_length, List.length_append, keysOf_length] at this
  simpa using this

theorem keysOf_mdelete {V : Type} (m : List (String × V)) (k : String) :
    keysOf (mdelete m k) = (keysOf m).filter (fun x => !(x == k)) := by
  simp only [keysOf, mdelete]
  induction m with
  | nil => simp
  | cons q t ih =>
    obtain ⟨a, b⟩ := q
    by_cases ha : (a == k) = true
    · simp [List.filter_cons, ha, ih]
    · have hb : (a == k) = false := by
        cases h2 : (a == k)
        · rfl
        · exact absurd h2 ha
      simp [List.filter_cons, hb, ih]

theorem get_cache_eq {V : Type} (c : LRUCache V) (k : String) :
    ((c.get k).2).cache = c.cache := by
  simp only [LRUCache.get]
  split <;> rfl

theorem get_params {V : Type} (c : LRUCache V) (k : String) :
    ((c.get k).2).maxSize = c.maxSize ∧ ((c.get k).2).evictionCount = c.evictionCount := by
  simp only [LRUCache.get]
  split <;> exact ⟨rfl, rfl⟩

theorem set_params {V : Type} (c : LRUCache V) (k : String) (v : V) :
    ((c.set k v)).maxSize = c.maxSize ∧ ((c.set k v)).evictionCount = c.evictionCount := by
  simp only [LRUCache.set, LRUCache.evict]
  split <;> exact ⟨rfl, rfl⟩

theorem clear_params {V : Type} (c : LRUCache V) :
    (c.clear).maxSize = c.maxSize ∧ (c.clear).evictionCount = c.evictionCount :=
  ⟨rfl, rfl⟩

theorem set_cache_mem {V : Type} (c : LRUCache V) (k : String) (v : V) (p : String × V)
    (h : p ∈ (c.set k v).cache) : p ∈ c.cache ∨ p = (k, v) := by
  simp only [LRUCache.set] at h
  split at h
  · rcases mset_mem _ _ _ _ h with h1 | h1
    · left
      exact foldl_mdelete_mem _ _ _ h1
    · right; exact h1
  · exact mset_mem _ _ _ _ h

theorem mget_set_self {V : Type} (c : LRUCache V) (k : String) (v : V) :
    mget (c.set k v).cache k = some v := by
  simp only [LRUCache.set]
  split <;> exact mget_mset_self _ _ _

theorem bool_eq_false {b : Bool} (h : ¬ b = true) : b = false := by
  cases b
  · rfl
  · exact absurd rfl h

theorem filter_length_split {α : Type} (p : α → Bool) (l : List α) :
    (l.filter p).length + (l.filter (fun a => !(p a))).length = l.length := by
  induction l with
  | nil => rfl
  | cons a t ih =>
    by_cases h : p a = true
    · simp [List.filter_cons, h]
      omega
    · have h2 : p a = false := bool_eq_false h
      simp [List.filter_cons, h2]
      omega

/-! ## C5: exponential backoff with jitter -/

/-- C5: for attempt `n ≥ 1` the delay is `min(initial * multiplier^(n-1), cap)`
plus a jitter in `[0, JITTER_MAX)`; the deterministic component is
non-decreasing in the attempt number, and the whole delay is bounded by
`cap + JITTER_MAX`. -/
theorem c5_backoff_delay (m n : Nat) (rand : ℚ) (hm : 1 ≤ m) (hmn : m ≤ n)
    (h0 : 0 ≤ rand) (h1 : rand < 1) :
    (∃ j : Nat, j < RETRY.JITTER_MAX ∧
        calculateBackoffDelay n RETRY.INITIAL_BACKOFF RETRY.MAX_BACKOFF RETRY.BACKOFF_MULTIPLIER rand
          = min (RETRY.INITIAL_BACKOFF * RETRY.BACKOFF_MULTIPLIER ^ (n - 1)) RETRY.MAX_BACKOFF + j) ∧
    calculateBackoffDelay m RETRY.INITIAL_BACKOFF RETRY.MAX_BACKOFF RETRY.BACKOFF_MULTIPLIER 0
      ≤ calculateBackoffDelay n RETRY.INITIAL_BACKOFF RETRY.MAX_BACKOFF RETRY.BACKOFF_MULTIPLIER 0 ∧
    calculateBackoffDelay n RETRY.INITIAL_BACKOFF RETRY.MAX_BACKOFF RETRY.BACKOFF_MULTIPLIER rand
      ≤ RETRY.MAX_BACKOFF + RETRY.JITTER_MAX := by
  have hjmax : (0 : ℚ) < (RETRY.JITTER_MAX : ℚ) := by
    norm_num [RETRY.JITTER_MAX]
  have h2 : rand * (RETRY.JITTER_MAX : ℚ) < (RETRY.JITTER_MAX : ℚ) := by
    calc rand * (RETRY.JITTER_MAX : ℚ) < 1 * (RETRY.JITTER_MAX : ℚ) :=
          mul_lt_mul_of_pos_right h1 hjmax
    _ = (RETRY.JITTER_MAX : ℚ) := one_mul _
  have h3 : Int.floor (rand * (RETRY.JITTER_MAX : ℚ)) < (RETRY.JITTER_MAX : ℤ) := by
    rw [Int.floor_lt]
    push_cast
    exact h2
  have hj : (Int.floor (rand * (RETRY.JITTER_MAX : ℚ))).toNat < RETRY.JITTER_MAX := by
    have hconst : RETRY.JITTER_MAX = 500 := rfl
    omega
  refine ⟨⟨(Int.floor (rand * (RETRY.JITTER_MAX : ℚ))).toNat, hj, rfl⟩, ?_, ?_⟩
  · simp only [calculateBackoffDelay]
    have hmono : RETRY.INITIAL_BACKOFF * RETRY.BACKOFF_MULTIPLIER ^ (m - 1)
        ≤ RETRY.INITIAL_BACKOFF * RETRY.BACKOFF_MULTIPLIER ^ (n - 1) := by
      refine Nat.mul_le_mul_left _ (Nat.pow_le_pow_right ?_ ?_)
      · norm_num [RETRY.BACKOFF_MULTIPLIER]
      · omega
    exact Nat.add_le_add_right (min_le_min hmono (le_refl _)) _
  · simp only [calculateBackoffDelay]
    exact Nat.add_le_add (min_le_right _ _) (le_of_lt hj)

theorem c5_backoff_delay_witness :
    (1 ≤ 1 ∧ (1 : Nat) ≤ 2 ∧ (0 : ℚ) ≤ 0 ∧ (0 : ℚ) < 1) ∧
    calculateBackoffDelay 2 RETRY.INITIAL_BACKOFF RETRY.MAX_BACKOFF RETRY.BACKOFF_MULTIPLIER 0
      ≤ RETRY.MAX_BACKOFF + RETRY.JITTER_MAX :=
  ⟨⟨le_refl 1, by norm_num, le_refl 0, by norm_num⟩,
   (c5_backoff_delay 1 2 0 (le_refl 1) (by norm_num) (le_refl 0) (by norm_num)).2.2⟩

/-! ## C9: snapshot diff -/

theorem fmFold (vl : List (String × List String)) :
    ∀ (l m e : List (String × LockPkgInfo)),
      l.foldl (fmStep vl) (m, e)
        = (m ++ l.filter (fun p => !(snapshotHasVersion vl p.2)),
           e ++ l.filter (fun p => snapshotHasVersion vl p.2)) := by
  intro l
  induction l with
  | nil => intro m e; simp
  | cons p t ih =>
    intro m e
    by_cases hp : snapshotHasVersion vl p.2 = true
    · simp only [List.foldl_cons, fmStep, hp, if_true, List.filter_cons, Bool.not_true]
      rw [ih]
      simp
    · have hp2 : snapshotHasVersion vl p.2 = false := bool_eq_false hp
      simp only [List.foldl_cons, fmStep, hp2, List.filter_cons, Bool.not_false]
      rw [if_neg (by simp), ih]
      simp

theorem filterMissingPackages_eq (lock : List (String × LockPkgInfo))
    (vl : List (String × List String)) :
    filterMissingPackages lock vl
      = { missing := lock.filter (fun p => !(snapshotHasVersion vl p.2)),
          existing := lock.filter (fun p => snapshotHasVersion vl p.2),
          stats := { total := lock.length,
                     missing := (lock.filter (fun p => !(snapshotHasVersion vl p.2))).length,
                     existing := (lock.filter (fun p => snapshotHasVersion vl p.2)).length } } := by
  simp [filterMissingPackages, fmFold vl lock [] []]

theorem snapshotHasVersion_iff (vl : List (String × List String)) (info : LockPkgInfo) :
    snapshotHasVersion vl info = true ↔
      ∃ vs, mget vl info.name = some vs ∧ vs.contains info.version = true := by
  simp only [snapshotHasVersion]
  cases h : mget vl info.name <;> simp [h]

/-- C9: the diff puts a required identity in `existing` exactly when its name
is in the snapshot with the exact version, in `missing` otherwise; the two
parts partition the input and the stats are the sizes. -/
theorem c9_snapshot_diff (lock : List (String × LockPkgInfo))
    (vl : List (String × List String)) :
    (∀ p, p ∈ (filterMissingPackages lock vl).existing ↔
        p ∈ lock ∧ ∃ vs, mget vl p.2.name = some vs ∧ vs.contains p.2.version = true) ∧
    (∀ p, p ∈ (filterMissingPackages lock vl).missing ↔
        p ∈ lock ∧ snapshotHasVersion vl p.2 = false) ∧
    (∀ p, ¬(p ∈ (filterMissingPackages lock vl).missing ∧
            p ∈ (filterMissingPackages lock vl).existing)) ∧
    (filterMissingPackages lock vl).stats.total = lock.length ∧
    (filterMissingPackages lock vl).stats.missing
      = (filterMissingPackages lock vl).missing.length ∧
    (filterMissingPackages lock vl).stats.existing
      = (filterMissingPackages lock vl).existing.length ∧
    (filterMissingPackages lock vl).missing.length
        + (filterMissingPackages lock vl).existing.length = lock.length := by
  rw [filterMissingPackages_eq]
  refine ⟨?_, ?_, ?_, rfl, rfl, rfl, ?_⟩
  · intro p
    rw [List.mem_filter, snapshotHasVersion_iff]
  · intro p
    rw [List.mem_filter]
    simp [Bool.not_eq_true']
  · intro p
    rintro ⟨hm, he⟩
    rw [List.mem_filter] at hm he
    rcases hm with ⟨-, hm⟩
    rcases he with ⟨-, he⟩
    simp [he] at hm
  · have hsplit := filter_length_split (fun p => snapshotHasVersion vl p.2) lock
    show (lock.filter (fun p => !(snapshotHasVersion vl p.2))).length
        + (lock.filter (fun p => snapshotHasVersion vl p.2)).length = lock.length
    omega

theorem c9_snapshot_diff_witness :
    ("pkg@2.0.0", LockPkgInfo.mk "pkg" "2.0.0")
      ∈ (filterMissingPackages
          [("pkg@1.0.0", LockPkgInfo.mk "pkg" "1.0.0"),
           ("pkg@2.0.0", LockPkgInfo.mk "pkg" "2.0.0")]
          [("pkg", ["1.0.0"])]).missing :=
  ((c9_snapshot_diff
      [("pkg@1.0.0", LockPkgInfo.mk "pkg" "1.0.0"),
       ("pkg@2.0.0", LockPkgInfo.mk "pkg" "2.0.0")]
      [("pkg", ["1.0.0"])]).2.1 _).mpr ⟨by decide, by decide⟩

/-! ## C8: upload timeout computation -/

/-- C8 counterexample: the legacy publisher timeout at exactly 1 MiB for a
name not on the large-package list is `max(30000, 15000) = 30000`, not the
claimed base-plus-per-megabyte `30000 + 15000`. -/
theorem c8_timeout_counterexample :
    calculateTimeoutLegacy (some ((1024 : ℚ) * 1024)) "foo" = 30000 ∧
    ¬(calculateTimeoutLegacy (some ((1024 : ℚ) * 1024)) "foo" = 30000 + 15000) := by
  constructor
  · norm_num [calculateTimeoutLegacy, largePackages, strIncludes, containsSubL, startsWithL]
  · norm_num [calculateTimeoutLegacy, largePackages, strIncludes, containsSubL, startsWithL]

/-- C8 (amended): the shared-utils `calculateTimeout` is base plus a floored
per-megabyte allowance capped at the maximum, hence always between base and
maximum; the raised floor for historically large package names exists only in
the legacy publisher `calculateTimeout`, which instead computes
`max(30s, sizeMB * 15s)`, raised to at least 120s for matching names and
capped at 300s. -/
theorem c8_timeout_amended :
    (∀ size : Nat,
       calculateTimeout (some size)
         = min (TIMEOUTS.BASE + size * TIMEOUTS.PER_MB / SIZES.BYTES_PER_MB) TIMEOUTS.MAX ∧
       TIMEOUTS.BASE ≤ calculateTimeout (some size) ∧
       calculateTimeout (some size) ≤ TIMEOUTS.MAX) ∧
    (∀ (size : ℚ) (name : String),
       (30000 : ℚ) ≤ calculateTimeoutLegacy (some size) name ∧
       calculateTimeoutLegacy (some size) name ≤ 300000 ∧
       (largePackages.any (fun pkg => strIncludes name pkg) = true →
          (120000 : ℚ) ≤ calculateTimeoutLegacy (some size) name)) := by
  constructor
  · intro size
    refine ⟨rfl, ?_, ?_⟩
    · show TIMEOUTS.BASE ≤ min (TIMEOUTS.BASE + size * TIMEOUTS.PER_MB / SIZES.BYTES_PER_MB) TIMEOUTS.MAX
      refine le_min (Nat.le_add_right _ _) ?_
      norm_num [TIMEOUTS.BASE, TIMEOUTS.MAX]
    · exact min_le_right _ _
  · intro size name
    simp only [calculateTimeoutLegacy]
    refine ⟨?_, min_le_right _ _, ?_⟩
    · refine le_min ?_ (by norm_num)
      by_cases hl : largePackages.any (fun pkg => strIncludes name pkg) = true
      · rw [if_pos hl]
        exact le_trans (le_max_left _ _) (le_max_left _ _)
      · rw [if_neg hl]
        exact le_max_left _ _
    · intro hl
      rw [if_pos hl]
      refine le_min ?_ (by norm_num)
      exact le_max_right _ _

theorem c8_timeout_amended_witness :
    (largePackages.any (fun pkg => strIncludes "typescript" pkg) = true) ∧
    (120000 : ℚ) ≤ calculateTimeoutLegacy (some 0) "typescript" :=
  ⟨by decide, (c8_timeout_amended.2 0 "typescript").2.2 (by decide)⟩

/-! ## C1: certain pre-check hit short-circuits to Skipped -/

/-- C1: when the pre-check result is `exists` with `certain = true`, the
publish worker returns the Skipped outcome and makes no publish-primitive
invocation (empty tag trace), regardless of what the publish step would do. -/
theorem c1_precheck_skip {Info : Type} (r : ExistenceResult) (info : Info)
    (doPublish : PublishResult × List String)
    (hs : r.status = EXISTENCE.EXISTS) (hc : r.certain = true) :
    publishWorker true (some info) (some (preCheckClassify r)) doPublish
      = ({ status := STATUS.SKIPPED, reason := some "Pre-checked (exists)" }, []) := by
  simp [publishWorker, preCheckClassify, hs, hc]

theorem c1_precheck_skip_witness :
    ((ExistenceResult.mk EXISTENCE.EXISTS true none).status = EXISTENCE.EXISTS ∧
     (ExistenceResult.mk EXISTENCE.EXISTS true none).certain = true) ∧
    publishWorker true (some "pkg-info")
        (some (preCheckClassify (ExistenceResult.mk EXISTENCE.EXISTS true none)))
        ({ status := STATUS.SUCCESS }, ["latest"])
      = ({ status := STATUS.SKIPPED, reason := some "Pre-checked (exists)" }, []) :=
  ⟨⟨rfl, rfl⟩, c1_precheck_skip _ "pkg-info" _ rfl rfl⟩

/-! ## C6: version-ordering conflict fallback tag -/

/-- C6: when the primitive fails the first attempt with a version-ordering
conflict, exactly one immediate extra invocation is made, with the fallback
tag `generateVersionTag version` (prefix "legacy", dots replaced by dashes);
if it succeeds the outcome is Success with the fallback note and the original
attempt number, and if it fails the outcome is a terminal Error.  The tag
trace records exactly the two primitive invocations. -/
theorem c6_version_conflict_fallback (prim prim2 : Nat → String → PrimOut) (version : String)
    (preTag : Option String) (maxRetries : Nat) (m m2 : String)
    (hMR : 1 ≤ maxRetries)
    (h0 : prim 0 (preTag.getD "latest") = PrimOut.failure m)
    (hconf : isVersionOrderingConflict m = true)
    (hok : prim 1 (generateVersionTag version) = PrimOut.success)
    (h0b : prim2 0 (preTag.getD "latest") = PrimOut.failure m)
    (hfail : prim2 1 (generateVersionTag version) = PrimOut.failure m2) :
    publishPackageRun prim version preTag maxRetries
      = ({ status := STATUS.SUCCESS, attempt := some 1, tag := some (generateVersionTag version),
           note := some ("Published with tag " ++ generateVersionTag version ++ " (older version)") },
         [preTag.getD "latest", generateVersionTag version]) ∧
    publishPackageRun prim2 version preTag maxRetries
      = ({ status := STATUS.ERROR,
           error := some ("Version conflict retry failed: " ++ firstLine m2) },
         [preTag.getD "latest", generateVersionTag version]) ∧
    generateVersionTag version
      = "legacy" ++ "-" ++ String.mk (version.data.map (fun c => if c == '.' then '-' else c)) := by
  obtain ⟨f, rfl⟩ : ∃ f, maxRetries = f + 1 := ⟨maxRetries - 1, by omega⟩
  refine ⟨?_, ?_, rfl⟩
  · simp [publishPackageRun, publishGo, h0, hconf, hok]
  · simp [publishPackageRun, publishGo, h0b, hconf, hfail]

theorem c6_version_conflict_fallback_witness :
    publishPackageRun
        (fun c _ => if c = 0 then
            PrimOut.failure
              "npm ERR! Cannot write over previously published version: the previously published version 2.0.0 is higher than 1.0.0 - You must specify a tag using --tag"
          else PrimOut.success)
        "1.0.0" none 3
      = ({ status := STATUS.SUCCESS, attempt := some 1, tag := some (generateVersionTag "1.0.0"),
           note := some ("Published with tag " ++ generateVersionTag "1.0.0" ++ " (older version)") },
         ["latest", generateVersionTag "1.0.0"]) :=
  (c6_version_conflict_fallback
    (fun c _ => if c = 0 then
        PrimOut.failure
          "npm ERR! Cannot write over previously published version: the previously published version 2.0.0 is higher than 1.0.0 - You must specify a tag using --tag"
      else PrimOut.success)
    (fun c _ => PrimOut.failure (if c = 0 then
        "npm ERR! Cannot write over previously published version: the previously published version 2.0.0 is higher than 1.0.0 - You must specify a tag using --tag"
      else "403 Forbidden"))
    "1.0.0" none 3
    "npm ERR! Cannot write over previously published version: the previously published version 2.0.0 is higher than 1.0.0 - You must specify a tag using --tag"
    "403 Forbidden"
    (by norm_num) (by decide) (by decide) (by decide) (by decide) (by decide)).1

/-! ## Lemmas on the existence-check loop -/

theorem cacheOK_get (c : LRUCache ExistenceResult) (k : String) (hc : cacheOK c) :
    cacheOK ((c.get k).2) := by
  intro p hp
  rw [get_cache_eq] at hp
  exact hc p hp

theorem cacheOK_set (c : LRUCache ExistenceResult) (k : String) (v : ExistenceResult)
    (hc : cacheOK c)
    (hv : v.certain = true ∧ (v.status = EXISTENCE.EXISTS ∨ v.status = EXISTENCE.NOT_EXISTS)) :
    cacheOK (c.set k v) := by
  intro p hp
  rcases set_cache_mem c k v p hp with h | h
  · exact hc p h
  · rw [h]
    exact hv

theorem peGo_invariant (oracle : Nat → Resp) (cacheKey : String) :
    ∀ (fuel attempt : Nat) (lastError : Option String) (cache : LRUCache ExistenceResult),
      cacheOK cache →
      ((peGo oracle cache cacheKey fuel attempt lastError).result.certain = true →
        (peGo oracle cache cacheKey fuel attempt lastError).result.status = EXISTENCE.EXISTS ∨
        (peGo oracle cache cacheKey fuel attempt lastError).result.status = EXISTENCE.NOT_EXISTS) ∧
      ((peGo oracle cache cacheKey fuel attempt lastError).result.status = EXISTENCE.UNCERTAIN →
        (peGo oracle cache cacheKey fuel attempt lastError).result.certain = false) ∧
      cacheOK (peGo oracle cache cacheKey fuel attempt lastError).cache := by
  intro fuel
  induction fuel with
  | zero =>
    intro attempt lastError cache hc
    refine ⟨?_, ?_, hc⟩
    · intro h
      simp [peGo, mkUncertain] at h
    · intro _
      simp [peGo, mkUncertain]
  | succ f ih =>
    intro attempt lastError cache hc
    cases horacle : oracle attempt with
    | ok code body =>
      by_cases h200 : code = 200
      · cases body with
        | parsed hv =>
          simp only [peGo, horacle, if_pos h200]
          refine ⟨fun _ => ?_, fun h => ?_, ?_⟩
          · cases hv
            · right; rfl
            · left; rfl
          · exfalso
            cases hv <;> simp [EXISTENCE.EXISTS, EXISTENCE.NOT_EXISTS, EXISTENCE.UNCERTAIN] at h
          · refine cacheOK_set _ _ _ hc ⟨rfl, ?_⟩
            cases hv
            · right; rfl
            · left; rfl
        | parseFail msg =>
          simp only [peGo, horacle, if_pos h200]
          refine ⟨fun h => ?_, fun _ => rfl, hc⟩
          simp [mkUncertain] at h
      · by_cases h404 : code = 404
        · simp only [peGo, horacle, if_neg h200, if_pos h404]
          refine ⟨fun _ => ?_, fun h => ?_, ?_⟩
          · simp
          · exfalso
            simp [EXISTENCE.NOT_EXISTS, EXISTENCE.UNCERTAIN] at h
          · exact cacheOK_set _ _ _ hc ⟨rfl, Or.inr rfl⟩
        · by_cases hauth : code = 401 ∨ code = 403
          · simp only [peGo, horacle, if_neg h200, if_neg h404, if_pos hauth]
            exact ⟨fun h => by simp at h, fun _ => by simp, hc⟩
          · simp only [peGo, horacle, if_neg h200, if_neg h404, if_neg hauth]
            exact ih (attempt + 1) (some ("HTTP " ++ toString code)) cache hc
    | err msg =>
      simp only [peGo, horacle]
      exact ih (attempt + 1) (some msg) cache hc

theorem mhas_mget_isSome {V : Type} (m : List (String × V)) (k : String)
    (h : mhas m k = true) : ∃ v, mget m k = some v := by
  induction m with
  | nil => simp [mhas] at h
  | cons p t ih =>
    obtain ⟨a, b⟩ := p
    by_cases ha : a = k
    · exact ⟨b, by simp [mget, ha]⟩
    · have hbeq : (a == k) = false := by simpa [beq_iff_eq] using ha
      rw [mhas_cons, hbeq, Bool.false_or] at h
      obtain ⟨v, hv⟩ := ih h
      exact ⟨v, by simp [mget, hbeq, hv]⟩

/-! ## C2: tri-state invariant and cache purity -/

/-- C2: every result of `packageExists` satisfies the tri-state invariant
(`certain` implies status `exists`/`not_exists`; status `uncertain` implies
not `certain`), and starting from a cache whose stored values are all
certain, every value stored afterwards is still certain (an uncertain result
is never cached). -/
theorem c2_tristate_invariant (oracle : Nat → Resp) (name version registryUrl : String)
    (useCache : Bool) (maxRetries : Nat) (cache : LRUCache ExistenceResult)
    (hc : cacheOK cache) :
    ((packageExists oracle name version registryUrl useCache maxRetries cache).result.certain = true →
      (packageExists oracle name version registryUrl useCache maxRetries cache).result.status
          = EXISTENCE.EXISTS ∨
      (packageExists oracle name version registryUrl useCache maxRetries cache).result.status
          = EXISTENCE.NOT_EXISTS) ∧
    ((packageExists oracle name version registryUrl useCache maxRetries cache).result.status
        = EXISTENCE.UNCERTAIN →
      (packageExists oracle name version registryUrl useCache maxRetries cache).result.certain
        = false) ∧
    cacheOK (packageExists oracle name version registryUrl useCache maxRetries cache).cache := by
  simp only [packageExists]
  by_cases hhit : useCache = true ∧
      cache.has (registryUrl ++ "::" ++ name ++ "@" ++ version) = true
  · rw [if_pos hhit]
    obtain ⟨v, hv⟩ := mhas_mget_isSome cache.cache _ hhit.2
    have hget : cache.get (registryUrl ++ "::" ++ name ++ "@" ++ version)
        = (some v, { cache with
            accessOrder := updAcc cache.accessOrder (registryUrl ++ "::" ++ name ++ "@" ++ version) }) := by
      simp [LRUCache.get, hhit.2, hv]
    rw [hget]
    have hvOK := hc _ (mget_mem _ _ _ hv)
    refine ⟨fun _ => hvOK.2, fun hs => ?_, fun p hp => hc p hp⟩
    exfalso
    rcases hvOK.2 with h2 | h2 <;> rw [show (⟨v, _, 0⟩ : PEOut).result = v from rfl] at hs <;>
      rw [h2] at hs <;>
      simp [EXISTENCE.EXISTS, EXISTENCE.NOT_EXISTS, EXISTENCE.UNCERTAIN] at hs
  · rw [if_neg hhit]
    exact peGo_invariant oracle _ maxRetries 1 none cache hc

theorem c2_tristate_invariant_witness :
    cacheOK ((packageExists (fun _ => Resp.ok 200 (RespBody.parsed true)) "a" "1.0.0"
        "http://r" true 2 (emptyLRU ExistenceResult 10000 1000)).cache) :=
  (c2_tristate_invariant (fun _ => Resp.ok 200 (RespBody.parsed true)) "a" "1.0.0"
    "http://r" true 2 (emptyLRU ExistenceResult 10000 1000)
    (fun p hp => absurd hp (List.not_mem_nil p))).2.2

/-! ## C10: totality of the existence check -/

theorem peGo_status_cases (oracle : Nat → Resp) (cacheKey : String) :
    ∀ (fuel attempt : Nat) (lastError : Option String) (cache : LRUCache ExistenceResult),
      (peGo oracle cache cacheKey fuel attempt lastError).result.status = EXISTENCE.EXISTS ∨
      (peGo oracle cache cacheKey fuel attempt lastError).result.status = EXISTENCE.NOT_EXISTS ∨
      (peGo oracle cache cacheKey fuel attempt lastError).result.status = EXISTENCE.UNCERTAIN := by
  intro fuel
  induction fuel with
  | zero =>
    intro attempt lastError cache
    right; right; rfl
  | succ f ih =>
    intro attempt lastError cache
    cases horacle : oracle attempt with
    | ok code body =>
      by_cases h200 : code = 200
      · cases body with
        | parsed hv =>
          simp only [peGo, horacle, if_pos h200]
          cases hv
          · right; left; rfl
          · left; rfl
        | parseFail msg =>
          simp only [peGo, horacle, if_pos h200]
          right; right; rfl
      · by_cases h404 : code = 404
        · simp only [peGo, horacle, if_neg h200, if_pos h404]
          right; left; trivial
        · by_cases hauth : code = 401 ∨ code = 403
          · simp only [peGo, horacle, if_neg h200, if_neg h404, if_pos hauth]
            right; right; trivial
          · simp only [peGo, horacle, if_neg h200, if_neg h404, if_neg hauth]
            exact ih (attempt + 1) (some ("HTTP " ++ toString code)) cache
    | err msg =>
      simp only [peGo, horacle]
      exact ih (attempt + 1) (some msg) cache

theorem peGo_uncertain_has_error (oracle : Nat → Resp) (cacheKey : String) :
    ∀ (fuel attempt : Nat) (lastError : Option String) (cache : LRUCache ExistenceResult),
      (1 ≤ fuel ∨ lastError.isSome = true) →
      (peGo oracle cache cacheKey fuel attempt lastError).result.status = EXISTENCE.UNCERTAIN →
      (peGo oracle cache cacheKey fuel attempt lastError).result.error.isSome = true := by
  intro fuel
  induction fuel with
  | zero =>
    intro attempt lastError cache hfl _
    rcases hfl with hfl | hfl
    · omega
    · simpa [peGo, mkUncertain] using hfl
  | succ f ih =>
    intro attempt lastError cache _
    cases horacle : oracle attempt with
    | ok code body =>
      by_cases h200 : code = 200
      · cases body with
        | parsed hv =>
          simp only [peGo, horacle, if_pos h200]
          intro hs
          exfalso
          cases hv <;>
            simp [EXISTENCE.EXISTS, EXISTENCE.NOT_EXISTS, EXISTENCE.UNCERTAIN] at hs
        | parseFail msg =>
          simp only [peGo, horacle, if_pos h200]
          intro _
          rfl
      · by_cases h404 : code = 404
        · simp only [peGo, horacle, if_neg h200, if_pos h404]
          intro hs
          exfalso
          simp [EXISTENCE.NOT_EXISTS, EXISTENCE.UNCERTAIN] at hs
        · by_cases hauth : code = 401 ∨ code = 403
          · simp only [peGo, horacle, if_neg h200, if_neg h404, if_pos hauth]
            intro _
            rfl
          · simp only [peGo, horacle, if_neg h200, if_neg h404, if_neg hauth]
            exact ih (attempt + 1) (some ("HTTP " ++ toString code)) cache (Or.inr rfl)
    | err msg =>
      simp only [peGo, horacle]
      exact ih (attempt + 1) (some msg) cache (Or.inr rfl)

/-- C10: `packageExists` is total in the embedding and always yields one of
the three statuses; whenever the final status is `uncertain` (and at least
one attempt was allowed), the result carries an error description. -/
theorem c10_existence_total (oracle : Nat → Resp) (name version registryUrl : String)
    (useCache : Bool) (maxRetries : Nat) (cache : LRUCache ExistenceResult)
    (hc : cacheOK cache) (hmr : 1 ≤ maxRetries) :
    ((packageExists oracle name version registryUrl useCache maxRetries cache).result.status
        = EXISTENCE.EXISTS ∨
     (packageExists oracle name version registryUrl useCache maxRetries cache).result.status
        = EXISTENCE.NOT_EXISTS ∨
     (packageExists oracle name version registryUrl useCache maxRetries cache).result.status
        = EXISTENCE.UNCERTAIN) ∧
    ((packageExists oracle name version registryUrl useCache maxRetries cache).result.status
        = EXISTENCE.UNCERTAIN →
      ∃ e, (packageExists oracle name version registryUrl useCache maxRetries cache).result.error
          = some e) := by
  simp only [packageExists]
  by_cases hhit : useCache = true ∧
      cache.has (registryUrl ++ "::" ++ name ++ "@" ++ version) = true
  · rw [if_pos hhit]
    obtain ⟨v, hv⟩ := mhas_mget_isSome cache.cache _ hhit.2
    have hget : cache.get (registryUrl ++ "::" ++ name ++ "@" ++ version)
        = (some v, { cache with
            accessOrder := updAcc cache.accessOrder (registryUrl ++ "::" ++ name ++ "@" ++ version) }) := by
      simp [LRUCache.get, hhit.2, hv]
    rw [hget]
    have hvOK := hc _ (mget_mem _ _ _ hv)
    constructor
    · rcases hvOK.2 with h2 | h2
      · exact Or.inl h2
      · exact Or.inr (Or.inl h2)
    · intro hs
      exfalso
      rcases hvOK.2 with h2 | h2 <;> rw [show (⟨v, _, 0⟩ : PEOut).result = v from rfl] at hs <;>
        rw [h2] at hs <;>
        simp [EXISTENCE.EXISTS, EXISTENCE.NOT_EXISTS, EXISTENCE.UNCERTAIN] at hs
  · rw [if_neg hhit]
    refine ⟨peGo_status_cases oracle _ maxRetries 1 none cache, fun hs => ?_⟩
    have := peGo_uncertain_has_error oracle _ maxRetries 1 none cache (Or.inl hmr) hs
    cases herr : (peGo oracle cache _ maxRetries 1 none).result.error with
    | none => rw [herr] at this; simp at this
    | some e => exact ⟨e, rfl⟩

theorem c10_existence_total_witness :
    (packageExists (fun _ => Resp.err "ETIMEDOUT") "a" "1.0.0" "http://r" true 2
        (emptyLRU ExistenceResult 10000 1000)).result.status = EXISTENCE.EXISTS ∨
    (packageExists (fun _ => Resp.err "ETIMEDOUT") "a" "1.0.0" "http://r" true 2
        (emptyLRU ExistenceResult 10000 1000)).result.status = EXISTENCE.NOT_EXISTS ∨
    (packageExists (fun _ => Resp.err "ETIMEDOUT") "a" "1.0.0" "http://r" true 2
        (emptyLRU ExistenceResult 10000 1000)).result.status = EXISTENCE.UNCERTAIN :=
  (c10_existence_total (fun _ => Resp.err "ETIMEDOUT") "a" "1.0.0" "http://r" true 2
    (emptyLRU ExistenceResult 10000 1000)
    (fun p hp => absurd hp (List.not_mem_nil p)) (by norm_num)).1

/-! ## C7: cache idempotence of the existence check -/

theorem peGo_certain_cached (oracle : Nat → Resp) (cacheKey : String) :
    ∀ (fuel attempt : Nat) (lastError : Option String) (cache : LRUCache ExistenceResult),
      (peGo oracle cache cacheKey fuel attempt lastError).result.certain = true →
      mget (peGo oracle cache cacheKey fuel attempt lastError).cache.cache cacheKey
        = some (peGo oracle cache cacheKey fuel attempt lastError).result := by
  intro fuel
  induction fuel with
  | zero =>
    intro attempt lastError cache h
    simp [peGo, mkUncertain] at h
  | succ f ih =>
    intro attempt lastError cache
    cases horacle : oracle attempt with
    | ok code body =>
      by_cases h200 : code = 200
      · cases body with
        | parsed hv =>
          simp only [peGo, horacle, if_pos h200]
          intro _
          exact mget_set_self _ _ _
        | parseFail msg =>
          simp only [peGo, horacle, if_pos h200]
          intro h
          simp [mkUncertain] at h
      · by_cases h404 : code = 404
        · simp only [peGo, horacle, if_neg h200, if_pos h404]
          intro _
          exact mget_set_self _ _ _
        · by_cases hauth : code = 401 ∨ code = 403
          · simp only [peGo, horacle, if_neg h200, if_neg h404, if_pos hauth]
            intro h
            simp at h
          · simp only [peGo, horacle, if_neg h200, if_neg h404, if_neg hauth]
            exact ih (attempt + 1) (some ("HTTP " ++ toString code)) cache
    | err msg =>
      simp only [peGo, horacle]
      exact ih (attempt + 1) (some msg) cache

theorem packageExists_certain_cached (oracle : Nat → Resp) (name version registryUrl : String)
    (useCache : Bool) (maxRetries : Nat) (cache : LRUCache ExistenceResult)
    (h : (packageExists oracle name version registryUrl useCache maxRetries cache).result.certain
        = true) :
    mget (packageExists oracle name version registryUrl useCache maxRetries cache).cache.cache
        (registryUrl ++ "::" ++ name ++ "@" ++ version)
      = some (packageExists oracle name version registryUrl useCache maxRetries cache).result := by
  simp only [packageExists] at h ⊢
  by_cases hhit : useCache = true ∧
      cache.has (registryUrl ++ "::" ++ name ++ "@" ++ version) = true
  · rw [if_pos hhit] at h ⊢
    obtain ⟨v, hv⟩ := mhas_mget_isSome cache.cache _ hhit.2
    have hget : cache.get (registryUrl ++ "::" ++ name ++ "@" ++ version)
        = (some v, { cache with
            accessOrder := updAcc cache.accessOrder (registryUrl ++ "::" ++ name ++ "@" ++ version) }) := by
      simp [LRUCache.get, hhit.2, hv]
    rw [hget] at h ⊢
    exact hv
  · rw [if_neg hhit] at h ⊢
    exact peGo_certain_cached oracle _ maxRetries 1 none cache h

/-- C7 (amended): when the first cached check returns a certain result, a
second check with `useCache = true` and no intervening clear returns the
identical result and issues no network request (whatever the network would
do); an uncertain first result is deliberately not cached, so the second
call does hit the network again. -/
theorem c7_cache_idempotent (oracle oracle2 : Nat → Resp) (name version registryUrl : String)
    (maxRetries : Nat) (cache : LRUCache ExistenceResult)
    (hcert : (packageExists oracle name version registryUrl true maxRetries cache).result.certain
        = true) :
    (packageExists oracle2 name version registryUrl true maxRetries
        (packageExists oracle name version registryUrl true maxRetries cache).cache).result
      = (packageExists oracle name version registryUrl true maxRetries cache).result ∧
    (packageExists oracle2 name version registryUrl true maxRetries
        (packageExists oracle name version registryUrl true maxRetries cache).cache).requests
      = 0 := by
  have hm := packageExists_certain_cached oracle name version registryUrl true maxRetries cache
    hcert
  cases hfst : packageExists oracle name version registryUrl true maxRetries cache with
  | mk res cc reqs =>
    rw [hfst] at hm
    have hhas : cc.has (registryUrl ++ "::" ++ name ++ "@" ++ version) = true :=
      mget_isSome_mhas _ _ _ hm
    have hget : cc.get (registryUrl ++ "::" ++ name ++ "@" ++ version)
        = (some res,
           { cc with
             accessOrder := updAcc cc.accessOrder (registryUrl ++ "::" ++ name ++ "@" ++ version) }) := by
      simp only [LRUCache.get, hhas, if_true]
      rw [hm]
    simp only [packageExists]
    rw [if_pos (And.intro (by trivial) hhas), hget]
    exact ⟨by trivial, by trivial⟩

theorem c7_cache_idempotent_witness :
    (packageExists (fun _ => Resp.err "boom") "a" "1.0.0" "http://r" true 2
        ((packageExists (fun _ => Resp.ok 200 (RespBody.parsed true)) "a" "1.0.0" "http://r" true 2
          (emptyLRU ExistenceResult 10000 1000)).cache)).requests = 0 :=
  (c7_cache_idempotent (fun _ => Resp.ok 200 (RespBody.parsed true)) (fun _ => Resp.err "boom")
    "a" "1.0.0" "http://r" 2 (emptyLRU ExistenceResult 10000 1000) (by decide)).2

/-- C7 counterexample: with a persistently failing network the first call
returns an uncertain result, which is not cached, so the second sequential
call with `useCache = true` still issues network requests (two, not zero). -/
theorem c7_counterexample :
    ¬((packageExists (fun _ => Resp.err "ECONNRESET") "a" "1.0.0" "http://r" true 2
        ((packageExists (fun _ => Resp.err "ECONNRESET") "a" "1.0.0" "http://r" true 2
          (emptyLRU ExistenceResult 10000 1000)).cache)).requests = 0) := by
  decide

/-! ## C3: reconciliation of 404 failures -/

theorem peGo_cache_irrel (oracle : Nat → Resp) (cacheKey : String) :
    ∀ (fuel attempt : Nat) (lastError : Option String) (c1 c2 : LRUCache ExistenceResult),
      (peGo oracle c1 cacheKey fuel attempt lastError).result
        = (peGo oracle c2 cacheKey fuel attempt lastError).result ∧
      (peGo oracle c1 cacheKey fuel attempt lastError).requests
        = (peGo oracle c2 cacheKey fuel attempt lastError).requests := by
  intro fuel
  induction fuel with
  | zero =>
    intro attempt lastError c1 c2
    exact ⟨rfl, rfl⟩
  | succ f ih =>
    intro attempt lastError c1 c2
    cases horacle : oracle attempt with
    | ok code body =>
      by_cases h200 : code = 200
      · cases body with
        | parsed hv =>
          simp only [peGo, horacle, if_pos h200]
          exact ⟨by trivial, by trivial⟩
        | parseFail msg =>
          simp only [peGo, horacle, if_pos h200]
          exact ⟨by trivial, by trivial⟩
      · by_cases h404 : code = 404
        · simp only [peGo, horacle, if_neg h200, if_pos h404]
          exact ⟨by trivial, by trivial⟩
        · by_cases hauth : code = 401 ∨ code = 403
          · simp only [peGo, horacle, if_neg h200, if_neg h404, if_pos hauth]
            exact ⟨by trivial, by trivial⟩
          · simp only [peGo, horacle, if_neg h200, if_neg h404, if_neg hauth]
            have := ih (attempt + 1) (some ("HTTP " ++ toString code)) c1 c2
            exact ⟨this.1, by rw [this.2]⟩
    | err msg =>
      simp only [peGo, horacle]
      have := ih (attempt + 1) (some msg) c1 c2
      exact ⟨this.1, by rw [this.2]⟩

theorem packageExists_noCache (oracle : Nat → Resp) (name version registryUrl : String)
    (maxRetries : Nat) (cache : LRUCache ExistenceResult) :
    packageExists oracle name version registryUrl false maxRetries cache
      = peGo oracle cache (registryUrl ++ "::" ++ name ++ "@" ++ version) maxRetries 1 none := by
  simp [packageExists]

/-- C3: a failure whose error text contains "404" and whose identity is
resolvable is re-checked through `packageExists` with caching disabled (the
classification does not depend on the cache contents) and reclassified as a
false negative exactly when the re-check reports `exists`; any failure with
unresolvable identity or without "404" in its error text is confirmed with
no re-check (zero requests). -/
theorem c3_reconciliation (oracle : Nat → Resp) (c1 c2 : LRUCache ExistenceResult)
    (reg : String) (e : PublishResult) :
    ((truthyS e.error && strIncludes (e.error.getD "") "404") = true →
      resolvableIdentity e = true →
      (((verifyFailure oracle c1 reg e).isFalseNegative = true ↔
          (packageExists oracle (e.name.getD "") (e.version.getD "") reg false
            RETRY.PRE_CHECK_ATTEMPTS c1).result.status = EXISTENCE.EXISTS) ∧
        verifyFailure oracle c1 reg e = verifyFailure oracle c2 reg e)) ∧
    (((truthyS e.error && strIncludes (e.error.getD "") "404") = false ∨
        resolvableIdentity e = false) →
      verifyFailure oracle c1 reg e = ⟨false, 0⟩) := by
  constructor
  · intro h404 hres
    constructor
    · simp only [verifyFailure, h404, hres, if_true]
      rw [if_neg (by simp)]
      exact beq_iff_eq
    · simp only [verifyFailure, h404, hres, if_true]
      rw [if_neg (by simp), if_neg (by simp)]
      rw [packageExists_noCache, packageExists_noCache]
      have := peGo_cache_irrel oracle
        (reg ++ "::" ++ e.name.getD "" ++ "@" ++ e.version.getD "")
        RETRY.PRE_CHECK_ATTEMPTS 1 none c1 c2
      rw [this.1, this.2]
  · intro hcond
    rcases hcond with hA | hB
    · simp [verifyFailure, hA]
    · by_cases hA : (truthyS e.error && strIncludes (e.error.getD "") "404") = true
      · simp [verifyFailure, hA, hB]
      · simp [verifyFailure, bool_eq_false hA]

theorem c3_reconciliation_witness :
    (verifyFailure (fun _ => Resp.ok 200 (RespBody.parsed true))
        (emptyLRU ExistenceResult 10000 1000) "http://r"
        { status := STATUS.ERROR, name := some "a", version := some "1.0.0",
          error := some "npm ERR! 404 Not Found - PUT http://r/a" }).isFalseNegative = true :=
  ((c3_reconciliation (fun _ => Resp.ok 200 (RespBody.parsed true))
      (emptyLRU ExistenceResult 10000 1000) (emptyLRU ExistenceResult 10000 1000) "http://r"
      { status := STATUS.ERROR, name := some "a", version := some "1.0.0",
        error := some "npm ERR! 404 Not Found - PUT http://r/a" }).1
    (by decide) (by decide)).1.mpr (by decide)

/-! ## C4: LRU cache eviction -/

theorem updAcc_nodup (l : List String) (k : String) (h : l.Nodup) : (updAcc l k).Nodup := by
  rw [updAcc, List.nodup_append]
  refine ⟨h.erase k, List.nodup_singleton k, ?_⟩
  intro x hx hxk
  rw [List.mem_singleton] at hxk
  exact absurd hxk ((h.mem_erase_iff.mp hx).1)

theorem perm_updAcc (l : List String) (k : String) (h : k ∈ l) : l.Perm (updAcc l k) := by
  rw [updAcc]
  exact (List.perm_cons_erase h).trans (List.perm_append_singleton _ _).symm

theorem updAcc_of_not_mem (l : List String) (k : String) (h : ¬ k ∈ l) :
    updAcc l k = l ++ [k] := by
  rw [updAcc, List.erase_of_not_mem h]

theorem filter_ne_head (a : String) (t : List String) (hnd : (a :: t).Nodup) :
    (a :: t).filter (fun x => !(x == a)) = t := by
  rw [List.filter_cons]
  have h1 : (!(a == a)) = false := by simp
  rw [h1]
  simp only [Bool.false_eq_true, if_false]
  refine List.filter_eq_self.mpr ?_
  intro x hx
  have hxa : x ≠ a := fun hxa => (List.nodup_cons.mp hnd).1 (hxa ▸ hx)
  simp [beq_iff_eq, hxa]

theorem keysOf_foldl_mdelete_eq {V : Type} :
    ∀ (E : Nat) (acc : List String) (m : List (String × V)),
      keysOf m = acc → acc.Nodup →
      keysOf ((acc.take E).foldl (fun mm k => mdelete mm k) m) = acc.drop E := by
  intro E
  induction E with
  | zero =>
    intro acc m hk _
    simpa using hk
  | succ e ih =>
    intro acc m hk hnd
    cases acc with
    | nil => simpa using hk
    | cons a t =>
      simp only [List.take_succ_cons, List.foldl_cons, List.drop_succ_cons]
      have hdel : keysOf (mdelete m a) = t := by
        rw [keysOf_mdelete, hk]
        exact filter_ne_head a t hnd
      exact ih t (mdelete m a) hdel (List.Nodup.of_cons hnd)

theorem keysOf_foldl_mdelete_perm {V : Type} :
    ∀ (E : Nat) (acc : List String) (m : List (String × V)),
      (keysOf m).Perm acc → acc.Nodup →
      (keysOf ((acc.take E).foldl (fun mm k => mdelete mm k) m)).Perm (acc.drop E) := by
  intro E
  induction E with
  | zero =>
    intro acc m hk _
    simpa using hk
  | succ e ih =>
    intro acc m hk hnd
    cases acc with
    | nil => simpa using hk
    | cons a t =>
      simp only [List.take_succ_cons, List.foldl_cons, List.drop_succ_cons]
      have hdel : (keysOf (mdelete m a)).Perm t := by
        rw [keysOf_mdelete]
        refine (hk.filter _).trans ?_
        rw [filter_ne_head a t hnd]
      exact ih t (mdelete m a) hdel (List.Nodup.of_cons hnd)

theorem keysOf_foldl_mdelete_subset {V : Type} (R : List String) (m : List (String × V))
    (x : String) (h : x ∈ keysOf (R.foldl (fun mm k => mdelete mm k) m)) : x ∈ keysOf m := by
  simp only [keysOf, List.mem_map] at h ⊢
  obtain ⟨p, hp, rfl⟩ := h
  exact ⟨p, foldl_mdelete_mem p R m hp, rfl⟩

theorem cacheWF_empty (V : Type) (M E : Nat) : cacheWF (emptyLRU V M E) :=
  ⟨List.nodup_nil, List.Perm.refl []⟩

theorem cacheWF_get {V : Type} (c : LRUCache V) (k : String) (h : cacheWF c) :
    cacheWF ((c.get k).2) := by
  simp only [LRUCache.get]
  split
  · rename_i hhas
    refine ⟨updAcc_nodup _ _ h.1, ?_⟩
    have hk : k ∈ c.accessOrder := h.2.mem_iff.mp ((mhas_iff _ _).mp hhas)
    exact h.2.trans (perm_updAcc _ _ hk)
  · exact h

theorem cacheWF_clear {V : Type} (c : LRUCache V) : cacheWF (c.clear) :=
  ⟨List.nodup_nil, List.Perm.refl []⟩

theorem acc_length_eq_size {V : Type} (c : LRUCache V) (h : cacheWF c) :
    c.accessOrder.length = c.size := by
  rw [show c.size = c.cache.length from rfl, ← keysOf_length]
  exact h.2.length_eq.symm

theorem cacheWF_set {V : Type} (c : LRUCache V) (k : String) (v : V) (h : cacheWF c) :
    cacheWF (c.set k v) := by
  simp only [LRUCache.set]
  split
  · rename_i hcond
    obtain ⟨hhasF, _⟩ := hcond
    have hperm : (keysOf (c.evict).cache).Perm (c.accessOrder.drop c.evictionCount) := by
      simp only [LRUCache.evict]
      exact keysOf_foldl_mdelete_perm c.evictionCount c.accessOrder c.cache h.2 h.1
    have hndDrop : (c.accessOrder.drop c.evictionCount).Nodup :=
      List.Nodup.sublist (List.drop_sublist _ _) h.1
    have hkNotAcc : ¬ k ∈ c.accessOrder := by
      intro hk
      have : mhas c.cache k = true := (mhas_iff _ _).mpr (h.2.mem_iff.mpr hk)
      rw [show c.has k = mhas c.cache k from rfl] at hhasF
      rw [hhasF] at this
      cases this
    have hkNotE : mhas (c.evict).cache k = false := by
      rw [mhas_false_iff]
      intro hkIn
      have : k ∈ c.accessOrder.drop c.evictionCount := hperm.mem_iff.mp hkIn
      exact hkNotAcc (List.mem_of_mem_drop this)
    have hkNotDrop : ¬ k ∈ c.accessOrder.drop c.evictionCount :=
      fun hk => hkNotAcc (List.mem_of_mem_drop hk)
    constructor
    · rw [show (c.evict).accessOrder = c.accessOrder.drop c.evictionCount from rfl,
        updAcc_of_not_mem _ _ hkNotDrop]
      refine List.Nodup.append hndDrop (List.nodup_singleton k) ?_
      intro x hx hxk
      rw [List.mem_singleton] at hxk
      exact hkNotDrop (hxk ▸ hx)
    · rw [show (c.evict).accessOrder = c.accessOrder.drop c.evictionCount from rfl,
        updAcc_of_not_mem _ _ hkNotDrop, keysOf_mset_neg _ _ _ hkNotE]
      exact hperm.append_right [k]
  · rename_i hcond
    by_cases hhas : c.has k = true
    · refine ⟨updAcc_nodup _ _ h.1, ?_⟩
      rw [keysOf_mset_pos _ _ _ hhas]
      exact h.2.trans (perm_updAcc _ _ (h.2.mem_iff.mp ((mhas_iff _ _).mp hhas)))
    · have hhasF : c.has k = false := bool_eq_false hhas
      have hkNotAcc : ¬ k ∈ c.accessOrder := by
        intro hk
        have : mhas c.cache k = true := (mhas_iff _ _).mpr (h.2.mem_iff.mpr hk)
        rw [show c.has k = mhas c.cache k from rfl] at hhasF
        rw [hhasF] at this
        cases this
      rw [updAcc_of_not_mem _ _ hkNotAcc]
      constructor
      · refine List.Nodup.append h.1 (List.nodup_singleton k) ?_
        intro x hx hxk
        rw [List.mem_singleton] at hxk
        exact hkNotAcc (hxk ▸ hx)
      · rw [keysOf_mset_neg _ _ _ hhasF]
        exact h.2.append_right [k]

theorem size_set_le {V : Type} (c : LRUCache V) (k : String) (v : V) (h : cacheWF c)
    (hM : 1 ≤ c.maxSize) (hE : 1 ≤ c.evictionCount) (hs : c.size ≤ c.maxSize) :
    (c.set k v).size ≤ c.maxSize := by
  simp only [LRUCache.set]
  split
  · rename_i hcond
    obtain ⟨hhasF, hcap⟩ := hcond
    have hperm : (keysOf (c.evict).cache).Perm (c.accessOrder.drop c.evictionCount) := by
      simp only [LRUCache.evict]
      exact keysOf_foldl_mdelete_perm c.evictionCount c.accessOrder c.cache h.2 h.1
    have hkNotE : mhas (c.evict).cache k = false := by
      rw [mhas_false_iff]
      intro hkIn
      have hk : k ∈ c.accessOrder.drop c.evictionCount := hperm.mem_iff.mp hkIn
      have : mhas c.cache k = true :=
        (mhas_iff _ _).mpr (h.2.mem_iff.mpr (List.mem_of_mem_drop hk))
      rw [show c.has k = mhas c.cache k from rfl] at hhasF
      rw [hhasF] at this
      cases this
    have hlenE : (c.evict).cache.length = c.size - c.evictionCount := by
      rw [← keysOf_length, hperm.length_eq, List.length_drop, acc_length_eq_size c h]
    show (mset (c.evict).cache k v).length ≤ c.maxSize
    rw [length_mset_neg _ _ _ hkNotE, hlenE]
    omega
  · rename_i hcond
    by_cases hhas : c.has k = true
    · show (mset c.cache k v).length ≤ c.maxSize
      rw [length_mset_pos _ _ _ hhas]
      exact hs
    · have hhasF : c.has k = false := bool_eq_false hhas
      have hlt : ¬ c.maxSize ≤ c.size := fun hle => hcond ⟨hhasF, hle⟩
      show (mset c.cache k v).length ≤ c.maxSize
      rw [length_mset_neg _ _ _ hhasF]
      show c.size + 1 ≤ c.maxSize
      omega

theorem applyOps_bound {V : Type} :
    ∀ (ops : List (CacheOp V)) (c : LRUCache V),
      cacheWF c → c.size ≤ c.maxSize → 1 ≤ c.maxSize → 1 ≤ c.evictionCount →
      cacheWF (applyOps c ops) ∧ (applyOps c ops).size ≤ (applyOps c ops).maxSize ∧
      (applyOps c ops).maxSize = c.maxSize ∧ (applyOps c ops).evictionCount = c.evictionCount := by
  intro ops
  induction ops with
  | nil =>
    intro c h1 h2 _ _
    exact ⟨h1, h2, rfl, rfl⟩
  | cons op t ih =>
    intro c h1 h2 h3 h4
    have hstep : applyOps c (op :: t) = applyOps (applyOp c op) t := rfl
    rw [hstep]
    cases op with
    | opGet k =>
      simp only [applyOp]
      have hp := get_params c k
      have hsz : ((c.get k).2).size = c.size := by
        show ((c.get k).2).cache.length = c.cache.length
        rw [get_cache_eq]
      have hrec := ih ((c.get k).2) (cacheWF_get c k h1)
        (by rw [hsz, hp.1]; exact h2) (by rw [hp.1]; exact h3) (by rw [hp.2]; exact h4)
      exact ⟨hrec.1, hrec.2.1, by rw [hrec.2.2.1, hp.1], by rw [hrec.2.2.2, hp.2]⟩
    | opSet k v =>
      simp only [applyOp]
      have hp := set_params c k v
      have hrec := ih (c.set k v) (cacheWF_set c k v h1)
        (by rw [hp.1]; exact size_set_le c k v h1 h3 h4 h2)
        (by rw [hp.1]; exact h3) (by rw [hp.2]; exact h4)
      exact ⟨hrec.1, hrec.2.1, by rw [hrec.2.2.1, hp.1], by rw [hrec.2.2.2, hp.2]⟩
    | opClear =>
      simp only [applyOp]
      have hrec := ih (c.clear) (cacheWF_clear c)
        (Nat.zero_le _) h3 h4
      exact ⟨hrec.1, hrec.2.1, hrec.2.2.1, hrec.2.2.2⟩

theorem set_fresh {V : Type} (c : LRUCache V) (k : String) (v : V)
    (hkeys : keysOf c.cache = c.accessOrder) (hnd : c.accessOrder.Nodup)
    (hk : ¬ k ∈ c.accessOrder) :
    keysOf (c.set k v).cache
        = (if c.maxSize ≤ c.accessOrder.length then c.accessOrder.drop c.evictionCount
           else c.accessOrder) ++ [k] ∧
    (c.set k v).accessOrder
        = (if c.maxSize ≤ c.accessOrder.length then c.accessOrder.drop c.evictionCount
           else c.accessOrder) ++ [k] ∧
    (c.set k v).maxSize = c.maxSize ∧ (c.set k v).evictionCount = c.evictionCount := by
  have hhasF : c.has k = false := by
    rw [show c.has k = mhas c.cache k from rfl, mhas_false_iff, hkeys]
    exact hk
  have hsize : c.size = c.accessOrder.length := by
    rw [show c.size = c.cache.length from rfl, ← keysOf_length, hkeys]
  simp only [LRUCache.set]
  by_cases hcap : c.maxSize ≤ c.accessOrder.length
  · rw [if_pos ⟨hhasF, by rw [hsize]; exact hcap⟩, if_pos hcap]
    have hek : keysOf (c.evict).cache = c.accessOrder.drop c.evictionCount := by
      simp only [LRUCache.evict]
      exact keysOf_foldl_mdelete_eq c.evictionCount c.accessOrder c.cache hkeys hnd
    have hkNotDrop : ¬ k ∈ c.accessOrder.drop c.evictionCount :=
      fun hmem => hk (List.mem_of_mem_drop hmem)
    have hhasE : mhas (c.evict).cache k = false := by
      rw [mhas_false_iff, hek]
      exact hkNotDrop
    refine ⟨?_, ?_, rfl, rfl⟩
    · show keysOf (mset (c.evict).cache k v) = c.accessOrder.drop c.evictionCount ++ [k]
      rw [keysOf_mset_neg _ _ _ hhasE, hek]
    · show updAcc (c.evict).accessOrder k = c.accessOrder.drop c.evictionCount ++ [k]
      rw [show (c.evict).accessOrder = c.accessOrder.drop c.evictionCount from rfl,
        updAcc_of_not_mem _ _ hkNotDrop]
  · rw [if_neg (fun hcond => hcap (hsize ▸ hcond.2)), if_neg hcap]
    refine ⟨?_, ?_, rfl, rfl⟩
    · show keysOf (mset c.cache k v) = c.accessOrder ++ [k]
      rw [keysOf_mset_neg _ _ _ hhasF, hkeys]
    · show updAcc c.accessOrder k = c.accessOrder ++ [k]
      rw [updAcc_of_not_mem _ _ hk]

theorem insertAll_fresh {V : Type} (v : V) :
    ∀ (ks : List String) (c : LRUCache V),
      keysOf c.cache = c.accessOrder → (c.accessOrder ++ ks).Nodup →
      keysOf (insertAll c ks v).cache = (insertAll c ks v).accessOrder ∧
      (insertAll c ks v).accessOrder = repF c.maxSize c.evictionCount c.accessOrder ks ∧
      (insertAll c ks v).maxSize = c.maxSize ∧
      (insertAll c ks v).evictionCount = c.evictionCount := by
  intro ks
  induction ks with
  | nil =>
    intro c hkeys _
    exact ⟨hkeys, rfl, rfl, rfl⟩
  | cons x xs ih =>
    intro c hkeys hnd
    have hndAcc : c.accessOrder.Nodup := (List.nodup_append.mp hnd).1
    have hx : ¬ x ∈ c.accessOrder := by
      intro hmem
      exact (List.nodup_append.mp hnd).2.2 hmem (List.mem_cons_self x xs)
    have hsf := set_fresh c x v hkeys hndAcc hx
    have hnd2 : ((c.set x v).accessOrder ++ xs).Nodup := by
      rw [hsf.2.1]
      have hnd' : ((c.accessOrder ++ [x]) ++ xs).Nodup := by
        rw [← List.append_cons]
        exact hnd
      refine List.Nodup.sublist ?_ hnd'
      refine List.Sublist.append_right ?_ xs
      refine List.Sublist.append_right ?_ [x]
      by_cases hcap : c.maxSize ≤ c.accessOrder.length
      · rw [if_pos hcap]
        exact List.drop_sublist _ _
      · rw [if_neg hcap]
    have hrec := ih (c.set x v) (hsf.1.trans hsf.2.1.symm) hnd2
    have hstep : insertAll c (x :: xs) v = insertAll (c.set x v) xs v := rfl
    rw [hstep]
    refine ⟨hrec.1, ?_, ?_, ?_⟩
    · rw [hrec.2.1, hsf.2.1, hsf.2.2.1, hsf.2.2.2]
      rfl
    · rw [hrec.2.2.1, hsf.2.2.1]
    · rw [hrec.2.2.2, hsf.2.2.2]

theorem repF_suffix (M E : Nat) : ∀ (xs p : List String), repF M E p xs <:+ p ++ xs := by
  intro xs
  induction xs with
  | nil =>
    intro p
    rw [List.append_nil]
    exact List.suffix_refl p
  | cons x t ih =>
    intro p
    have h1 : (if M ≤ p.length then p.drop E else p) <:+ p := by
      by_cases hcap : M ≤ p.length
      · rw [if_pos hcap]
        exact List.drop_suffix _ _
      · rw [if_neg hcap]
    obtain ⟨u, hu⟩ := h1
    refine List.IsSuffix.trans (ih _) ?_
    exact ⟨u, by rw [← List.append_assoc, ← List.append_assoc, hu]; simp⟩

theorem repF_length (M E : Nat) : ∀ (xs p : List String),
    (repF M E p xs).length = lenF M E p.length xs.length := by
  intro xs
  induction xs with
  | nil => intro p; rfl
  | cons x t ih =>
    intro p
    show (repF M E ((if M ≤ p.length then p.drop E else p) ++ [x]) t).length
      = lenF M E ((if M ≤ p.length then p.length - E else p.length) + 1) t.length
    rw [ih]
    congr 1
    by_cases hcap : M ≤ p.length
    · rw [if_pos hcap, if_pos hcap]
      simp
    · rw [if_neg hcap, if_neg hcap]
      simp

theorem repF_no_evict (M E : Nat) : ∀ (ks p : List String),
    p.length + ks.length ≤ M → repF M E p ks = p ++ ks := by
  intro ks
  induction ks with
  | nil =>
    intro p _
    simp [repF]
  | cons x t ih =>
    intro p h
    have hlt : ¬ M ≤ p.length := by
      simp only [List.length_cons] at h
      omega
    show repF M E ((if M ≤ p.length then p.drop E else p) ++ [x]) t = p ++ x :: t
    rw [if_neg hlt, ih]
    · simp
    · simp only [List.length_append, List.length_singleton, List.length_cons,
        List.length_nil] at h ⊢
      omega

theorem lenF_succ (M E : Nat) : ∀ (n l : Nat),
    lenF M E l (n + 1) = (if M ≤ lenF M E l n then lenF M E l n - E else lenF M E l n) + 1 := by
  intro n
  induction n with
  | zero => intro l; rfl
  | succ q ih =>
    intro l
    have h1 : lenF M E l (q + 1 + 1) = lenF M E ((if M ≤ l then l - E else l) + 1) (q + 1) := rfl
    rw [h1, ih]
    rfl

theorem lenF_closed : ∀ n : Nat, lenF 10000 1000 0 n = n - 1000 * ((n + 999 - 10000) / 1000) := by
  intro n
  induction n with
  | zero => rfl
  | succ q ih =>
    rw [lenF_succ, ih]
    by_cases hcap : 10000 ≤ q - 1000 * ((q + 999 - 10000) / 1000)
    · rw [if_pos hcap]
      omega
    · rw [if_neg hcap]
      omega

theorem suffix_trans_of_length_le {α : Type} {s1 s2 l : List α}
    (h1 : s1 <:+ l) (h2 : s2 <:+ l) (hlen : s1.length ≤ s2.length) : s1 <:+ s2 := by
  obtain ⟨t1, ht1⟩ := h1
  obtain ⟨t2, ht2⟩ := h2
  have hl1 : t1.length + s1.length = l.length := by
    rw [← ht1]
    simp
  have hl2 : t2.length + s2.length = l.length := by
    rw [← ht2]
    simp
  have hs1 : s1 = l.drop t1.length := by
    rw [← ht1, List.drop_left]
  have hs2 : s2 = l.drop t2.length := by
    rw [← ht2, List.drop_left]
  rw [hs1, hs2]
  have heq : l.drop t1.length = (l.drop t2.length).drop (t1.length - t2.length) := by
    rw [List.drop_drop]
    congr 1
    omega
  rw [heq]
  exact List.drop_suffix _ _

/-- C4 (amended): the existence cache (maxSize 10000, evictionCount 1000)
never exceeds maxSize entries under any sequence of get/set/clear operations
starting from empty; a set of a fresh key at capacity removes the whole
block of the evictionCount least-recently-touched entries at once (size
drops to maxSize - evictionCount + 1 and each of the 1000 oldest keys is
gone); and after inserting maxSize + j distinct keys with 0 < j ≤ maxSize,
the j most-recently-inserted keys are all still present. -/
theorem c4_lru_eviction :
    (∀ ops : List (CacheOp ExistenceResult),
       (applyOps (emptyLRU ExistenceResult CACHE.MAX_SIZE CACHE.EVICTION_COUNT) ops).size
         ≤ CACHE.MAX_SIZE) ∧
    (∀ (keys : List String) (k : String) (v : ExistenceResult),
       (keys ++ [k]).Nodup → keys.length = CACHE.MAX_SIZE →
       ((insertAll (emptyLRU ExistenceResult CACHE.MAX_SIZE CACHE.EVICTION_COUNT) keys v).set
           k v).size
           = CACHE.MAX_SIZE - CACHE.EVICTION_COUNT + 1 ∧
       (∀ j ∈ keys.take CACHE.EVICTION_COUNT,
         ((insertAll (emptyLRU ExistenceResult CACHE.MAX_SIZE CACHE.EVICTION_COUNT) keys v).set
             k v).has j = false)) ∧
    (∀ (keys : List String) (v : ExistenceResult),
       keys.Nodup → CACHE.MAX_SIZE < keys.length →
       keys.length ≤ CACHE.MAX_SIZE + CACHE.MAX_SIZE →
       ∀ x ∈ keys.drop CACHE.MAX_SIZE,
         (insertAll (emptyLRU ExistenceResult CACHE.MAX_SIZE CACHE.EVICTION_COUNT) keys v).has x
           = true) := by
  refine ⟨?_, ?_, ?_⟩
  · intro ops
    have h := applyOps_bound ops (emptyLRU ExistenceResult CACHE.MAX_SIZE CACHE.EVICTION_COUNT)
      (cacheWF_empty _ _ _) (Nat.zero_le _) (by decide) (by decide)
    have h2 := h.2.1
    rw [h.2.2.1] at h2
    exact h2
  · intro keys k v hnd hlen
    have hndKeys : keys.Nodup := (List.nodup_append.mp hnd).1
    have hkNot : ¬ k ∈ keys := fun hk =>
      (List.nodup_append.mp hnd).2.2 hk (List.mem_singleton_self k)
    have hins := insertAll_fresh v keys
      (emptyLRU ExistenceResult CACHE.MAX_SIZE CACHE.EVICTION_COUNT) rfl (by simpa using hndKeys)
    have hrep : repF CACHE.MAX_SIZE CACHE.EVICTION_COUNT ([] : List String) keys = keys := by
      have hc := repF_no_evict CACHE.MAX_SIZE CACHE.EVICTION_COUNT keys []
        (by simp [hlen])
      simpa using hc
    have hacc : (insertAll (emptyLRU ExistenceResult CACHE.MAX_SIZE CACHE.EVICTION_COUNT)
        keys v).accessOrder = keys := by
      rw [hins.2.1]
      exact hrep
    have hsf := set_fresh
      (insertAll (emptyLRU ExistenceResult CACHE.MAX_SIZE CACHE.EVICTION_COUNT) keys v) k v
      hins.1 (by rw [hacc]; exact hndKeys) (by rw [hacc]; exact hkNot)
    have hkeys2 : keysOf ((insertAll (emptyLRU ExistenceResult CACHE.MAX_SIZE
        CACHE.EVICTION_COUNT) keys v).set k v).cache
        = keys.drop CACHE.EVICTION_COUNT ++ [k] := by
      rw [hsf.1, hacc, hins.2.2.1, hins.2.2.2]
      simp only [emptyLRU]
      rw [if_pos (by rw [hlen])]
    constructor
    · show ((insertAll (emptyLRU ExistenceResult CACHE.MAX_SIZE CACHE.EVICTION_COUNT)
          keys v).set k v).cache.length = CACHE.MAX_SIZE - CACHE.EVICTION_COUNT + 1
      rw [← keysOf_length, hkeys2]
      rw [List.length_append, List.length_drop, hlen]
      rfl
    · intro j hj
      rw [show ((insertAll (emptyLRU ExistenceResult CACHE.MAX_SIZE CACHE.EVICTION_COUNT)
          keys v).set k v).has j
          = mhas ((insertAll (emptyLRU ExistenceResult CACHE.MAX_SIZE CACHE.EVICTION_COUNT)
              keys v).set k v).cache j from rfl, mhas_false_iff, hkeys2]
      intro hmem
      rcases List.mem_append.mp hmem with hm | hm
      · have hndTD : (keys.take CACHE.EVICTION_COUNT ++ keys.drop CACHE.EVICTION_COUNT).Nodup := by
          rw [List.take_append_drop]
          exact hndKeys
        exact (List.nodup_append.mp hndTD).2.2 hj hm
      · rw [List.mem_singleton] at hm
        exact hkNot (hm ▸ List.mem_of_mem_take hj)
  · intro keys v hndKeys hgt hle x hx
    have hins := insertAll_fresh v keys
      (emptyLRU ExistenceResult CACHE.MAX_SIZE CACHE.EVICTION_COUNT) rfl (by simpa using hndKeys)
    have hsufF : (insertAll (emptyLRU ExistenceResult CACHE.MAX_SIZE CACHE.EVICTION_COUNT)
        keys v).accessOrder <:+ keys := by
      rw [hins.2.1]
      have h := repF_suffix CACHE.MAX_SIZE CACHE.EVICTION_COUNT keys []
      simpa using h
    have hlenAcc : (insertAll (emptyLRU ExistenceResult CACHE.MAX_SIZE CACHE.EVICTION_COUNT)
        keys v).accessOrder.length = lenF 10000 1000 0 keys.length := by
      rw [hins.2.1]
      exact repF_length CACHE.MAX_SIZE CACHE.EVICTION_COUNT keys []
    have hM : CACHE.MAX_SIZE = 10000 := rfl
    have hge : keys.length - CACHE.MAX_SIZE ≤ (insertAll (emptyLRU ExistenceResult
        CACHE.MAX_SIZE CACHE.EVICTION_COUNT) keys v).accessOrder.length := by
      rw [hlenAcc, lenF_closed]
      omega
    have hsufD : keys.drop CACHE.MAX_SIZE <:+ (insertAll (emptyLRU ExistenceResult
        CACHE.MAX_SIZE CACHE.EVICTION_COUNT) keys v).accessOrder := by
      refine suffix_trans_of_length_le (List.drop_suffix _ _) hsufF ?_
      rw [List.length_drop]
      exact hge
    rw [show (insertAll (emptyLRU ExistenceResult CACHE.MAX_SIZE CACHE.EVICTION_COUNT)
        keys v).has x
        = mhas (insertAll (emptyLRU ExistenceResult CACHE.MAX_SIZE CACHE.EVICTION_COUNT)
            keys v).cache x from rfl, mhas_iff, hins.1]
    exact hsufD.sublist.subset hx

theorem mkStr_injective : Function.Injective mkStr := by
  intro i j h
  have hdata := congrArg String.data h
  simp only [mkStr] at hdata
  have hlen := congrArg List.length hdata
  simpa using hlen

theorem seqKeys_nodup (n : Nat) : (seqKeys n).Nodup :=
  List.Nodup.map mkStr_injective (List.nodup_range n)

theorem seqKeys_length (n : Nat) : (seqKeys n).length = n := by
  simp [seqKeys]

theorem key_b_not_mem (n : Nat) : ¬ ("b" ∈ seqKeys n) := by
  simp only [seqKeys, List.mem_map]
  rintro ⟨i, -, hi⟩
  have hdata := congrArg String.data hi
  simp only [mkStr] at hdata
  have hmem : 'b' ∈ List.replicate i 'a' := by
    rw [hdata]
    decide
  exact absurd (List.eq_of_mem_replicate hmem) (by decide)

theorem c4_lru_eviction_witness :
    ((seqKeys 10000 ++ ["b"]).Nodup ∧ (seqKeys 10000).length = CACHE.MAX_SIZE) ∧
    ((insertAll (emptyLRU ExistenceResult CACHE.MAX_SIZE CACHE.EVICTION_COUNT) (seqKeys 10000)
        (ExistenceResult.mk EXISTENCE.EXISTS true none)).set "b"
        (ExistenceResult.mk EXISTENCE.EXISTS true none)).size
      = CACHE.MAX_SIZE - CACHE.EVICTION_COUNT + 1 :=
  have hnd : (seqKeys 10000 ++ ["b"]).Nodup :=
    List.Nodup.append (seqKeys_nodup 10000) (List.nodup_singleton "b")
      (fun x hx hxb => key_b_not_mem 10000 ((List.mem_singleton.mp hxb) ▸ hx))
  ⟨⟨hnd, seqKeys_length 10000⟩,
   (c4_lru_eviction.2.1 (seqKeys 10000) "b" (ExistenceResult.mk EXISTENCE.EXISTS true none)
     hnd (seqKeys_length 10000)).1⟩

/-- C4 counterexample: the claim as stated quantifies over every positive
number of extra insertions; with 20001 distinct keys (maxSize + 10001) the
10001 most-recently-inserted keys cannot all be present, since the cache
never holds more than 10000 entries. -/
theorem c4_lru_eviction_counterexample :
    (seqKeys 20001).Nodup ∧
    (seqKeys 20001).length = CACHE.MAX_SIZE + 10001 ∧
    ¬(∀ x ∈ (seqKeys 20001).drop CACHE.MAX_SIZE,
        (insertAll (emptyLRU ExistenceResult CACHE.MAX_SIZE CACHE.EVICTION_COUNT) (seqKeys 20001)
            (ExistenceResult.mk EXISTENCE.EXISTS true none)).has x = true) := by
  refine ⟨seqKeys_nodup _, by rw [seqKeys_length]; rfl, ?_⟩
  intro hall
  have hins := insertAll_fresh (ExistenceResult.mk EXISTENCE.EXISTS true none) (seqKeys 20001)
    (emptyLRU ExistenceResult CACHE.MAX_SIZE CACHE.EVICTION_COUNT) rfl
    (by
      show (([] : List String) ++ seqKeys 20001).Nodup
      rw [List.nil_append]
      exact seqKeys_nodup 20001)
  have hlenAcc : (insertAll (emptyLRU ExistenceResult CACHE.MAX_SIZE CACHE.EVICTION_COUNT)
      (seqKeys 20001) (ExistenceResult.mk EXISTENCE.EXISTS true none)).accessOrder.length
      = 9001 := by
    rw [hins.2.1]
    show (repF CACHE.MAX_SIZE CACHE.EVICTION_COUNT ([] : List String) (seqKeys 20001)).length
      = 9001
    rw [repF_length]
    show lenF 10000 1000 0 (seqKeys 20001).length = 9001
    rw [seqKeys_length, lenF_closed]
  have hsub : ∀ x ∈ (seqKeys 20001).drop CACHE.MAX_SIZE,
      x ∈ keysOf (insertAll (emptyLRU ExistenceResult CACHE.MAX_SIZE CACHE.EVICTION_COUNT)
        (seqKeys 20001) (ExistenceResult.mk EXISTENCE.EXISTS true none)).cache := by
    intro x hx
    have h := hall x hx
    rw [show (insertAll (emptyLRU ExistenceResult CACHE.MAX_SIZE CACHE.EVICTION_COUNT)
        (seqKeys 20001) (ExistenceResult.mk EXISTENCE.EXISTS true none)).has x
        = mhas (insertAll (emptyLRU ExistenceResult CACHE.MAX_SIZE CACHE.EVICTION_COUNT)
            (seqKeys 20001) (ExistenceResult.mk EXISTENCE.EXISTS true none)).cache x from rfl,
      mhas_iff] at h
    exact h
  have hndDrop : ((seqKeys 20001).drop CACHE.MAX_SIZE).Nodup :=
    List.Nodup.sublist (List.drop_sublist _ _) (seqKeys_nodup 20001)
  have hle := (hndDrop.subperm hsub).length_le
  rw [List.length_drop, seqKeys_length] at hle
  have hkeq : (keysOf (insertAll (emptyLRU ExistenceResult CACHE.MAX_SIZE CACHE.EVICTION_COUNT)
      (seqKeys 20001) (ExistenceResult.mk EXISTENCE.EXISTS true none)).cache).length = 9001 := by
    rw [hins.1]
    exact hlenAcc
  rw [hkeq] at hle
  have hM : CACHE.MAX_SIZE = 10000 := rfl
  omega
